import Mathlib

/-!
Verification of the clause segmentation / risk-classification core of the
Clause-by-Clause Contract Analysis repository.

Texts are modelled as `List Char` (Python `str`, one entry per code point).
Pure Python functions from `app/modules/clause_extractor.py`,
`app/modules/clause_risk.py` and `app/modules/ambiguity_detector.py` are
translated into executable Lean definitions; Python `float` arithmetic on
`confidence` / `quality_score` is modelled with exact rationals `ℚ`, and
Python's `round(x, 2)` with half-even rounding on `ℚ`.  Python regular
expressions in the source are all either literal alternations (modelled as
substring tests) or the three concrete split/match patterns of the
extractor, which are modelled by direct character scanners reproducing the
greedy leftmost semantics of `re` on those patterns.  A run of
`extract_clauses` can raise `AttributeError` (see `legalSplit` below:
`re.split` inserts `None` for the non-participating capture group), hence
the extractor is modelled in `Except Unit`.
-/

set_option maxRecDepth 40000

/-- Python whitespace (`str.strip`, regex `\s`), ASCII range as used by the data. -/
def isWsC (c : Char) : Bool :=
  c = ' ' || c = '\t' || c = '\n' || c = '\r' || c = '\x0b' || c = '\x0c'

/-- Python `str.lower` on ASCII text (`Char.toLower` lowers exactly `A`–`Z`). -/
def lowerL (s : List Char) : List Char :=
  s.map Char.toLower

/-- Python `str.strip()`: remove leading and trailing whitespace. -/
def trimL (s : List Char) : List Char :=
  ((s.dropWhile isWsC).reverse.dropWhile isWsC).reverse

/-- Python `text.split("\n")`: split at every newline, keeping empty pieces
(`"".split("\n") == [""]`). -/
def splitNl : List Char → List (List Char)
  | [] => [[]]
  | c :: rest =>
    if c = '\n' then [] :: splitNl rest
    else
      match splitNl rest with
      | [] => [[c]]
      | piece :: more => (c :: piece) :: more

/-- Python `" ".join(parts)`. -/
def joinSp : List (List Char) → List Char
  | [] => []
  | [x] => x
  | x :: rest => x ++ ' ' :: joinSp rest

/-- Python `pat in text`: substring test (executable form of `pat <:+: text`). -/
def isSub (pat text : List Char) : Bool :=
  text.tails.any fun t => pat.isPrefixOf t

/-- Python `any(k in text for k in pats)`. -/
def hasAny (pats : List (List Char)) (text : List Char) : Bool :=
  pats.any fun p => isSub p text

-- =====================================================
-- clean_text  (clause_extractor.py, lines 8-17)
-- =====================================================

/-- Step `text.replace("\t", " ")`. -/
def mapTab (s : List Char) : List Char :=
  s.map fun c => if c = '\t' then ' ' else c

/-- Step `re.sub(r"\r", "\n", text)`. -/
def mapCR (s : List Char) : List Char :=
  s.map fun c => if c = '\r' then '\n' else c

/-- Generic scanner replacing each maximal run of the character `a` whose
length exceeds `cap` by a run of exactly `cap` (shorter runs are kept);
`n` is the number of pending `a`s, flushed as `min n cap` at run end. -/
def colGo (a : Char) (cap : Nat) : Nat → List Char → List Char
  | n, [] => List.replicate (min n cap) a
  | n, c :: rest =>
    if c = a then colGo a cap (n + 1) rest
    else List.replicate (min n cap) a ++ c :: colGo a cap 0 rest

/-- Python `re.sub(r"\n{3,}", "\n\n", text)`: runs of 3 or more newlines
become exactly two. -/
def collapseNl (s : List Char) : List Char :=
  colGo '\n' 2 0 s

/-- Python `re.sub(r"[ ]{2,}", " ", text)`: runs of 2 or more spaces become
exactly one. -/
def collapseSp (s : List Char) : List Char :=
  colGo ' ' 1 0 s

/-- The text normalizer `clean_text` (clause_extractor.py, lines 8-17).
The Python early return `if not text: return ""` coincides with running the
pipeline on the empty string. -/
def cleanL (s : List Char) : List Char :=
  trimL (collapseSp (collapseNl (mapCR (mapTab s))))


-- =====================================================
-- Ambiguity detector  (ambiguity_detector.py)
-- =====================================================

/-- One entry of the `AMBIGUOUS_TERMS` lexicon. -/
structure AmbTermInfo where
  category : String
  severity : Nat
  suggestion : String
deriving DecidableEq

/-- The fixed `AMBIGUOUS_TERMS` dictionary, in insertion order (Python dicts
preserve it). -/
def AMBIGUOUS_TERMS : List (List Char × AmbTermInfo) := [
  ("reasonable".data, ⟨"Subjective", 2, "Define objective standards or measurable criteria."⟩),
  ("reasonably".data, ⟨"Subjective", 2, "Specify exact conditions instead of subjective judgment."⟩),
  ("best efforts".data, ⟨"Obligation", 3, "Replace with clearly defined obligations or milestones."⟩),
  ("commercially reasonable".data, ⟨"Subjective", 3, "Define industry benchmarks or financial limits."⟩),
  ("from time to time".data, ⟨"Timeline", 2, "Specify frequency or fixed intervals."⟩),
  ("as soon as possible".data, ⟨"Timeline", 3, "Replace with a defined number of days."⟩),
  ("material".data, ⟨"Scope", 2, "Define what constitutes a material breach or change."⟩),
  ("significant".data, ⟨"Scope", 2, "Quantify what is considered significant."⟩),
  ("substantial".data, ⟨"Scope", 2, "Replace with numerical or objective thresholds."⟩),
  ("at its discretion".data, ⟨"Discretion", 3, "Limit discretion with conditions or mutual consent."⟩)]

/-- The basic detector `detect_ambiguity`: matched lexicon phrases in lexicon
order (`[term for term in AMBIGUOUS_TERMS if term in text]`). -/
def detect_ambiguity (clause_text : List Char) : List (List Char) :=
  if clause_text = [] then []
  else
    let text := lowerL clause_text
    (AMBIGUOUS_TERMS.map Prod.fst).filter fun term => isSub term text

/-- Result record of `analyze_ambiguity`. -/
structure AmbiguityAnalysis where
  found_terms : List (List Char)
  severity_score : Nat
  risk_level : String
  categories : List String
  suggestions : List String
  explanation : String
deriving DecidableEq

/-- The accumulation loop of `analyze_ambiguity` over the lexicon: collects
found terms, the severity sum, and the categories and suggestions in
encounter order. -/
def ambLoop : List (List Char × AmbTermInfo) → List Char →
    List (List Char) × Nat × List String × List String
  | [], _ => ([], 0, [], [])
  | (term, info) :: rest, text =>
    let r := ambLoop rest text
    if isSub term text then
      (term :: r.1, info.severity + r.2.1, info.category :: r.2.2.1,
       info.suggestion :: r.2.2.2)
    else r

/-- The advanced detector `analyze_ambiguity`.  Python turns `categories` and
`suggestions` into `list(set(...))`, whose iteration order is unspecified; it
is modelled as deduplication in encounter order (`List.dedup`). -/
def analyze_ambiguity (clause_text : List Char) : AmbiguityAnalysis :=
  if clause_text = [] then
    ⟨[], 0, "Low", [], [], "No clause text provided."⟩
  else
    let text := lowerL clause_text
    let r := ambLoop AMBIGUOUS_TERMS text
    let found := r.1
    let severity_score := r.2.1
    let risk_level :=
      if 6 ≤ severity_score then "High"
      else if 3 ≤ severity_score then "Medium"
      else "Low"
    let explanation :=
      if found = [] then "No ambiguous legal language detected."
      else "Clause contains vague language that may lead to multiple interpretations and potential disputes."
    ⟨found, severity_score, risk_level, r.2.2.1.dedup, r.2.2.2.dedup, explanation⟩

-- =====================================================
-- Risk scorer  (clause_risk.py)
-- =====================================================

def classify_kw_termination : List (List Char) :=
  ["terminate".data, "termination".data]
def classify_kw_noncompete : List (List Char) :=
  ["non-compete".data, "non compete".data, "shall not compete".data,
   "restriction after termination".data]
def classify_kw_confidentiality : List (List Char) :=
  ["confidential".data, "non-disclosure".data, "confidential information".data]
def classify_kw_compensation : List (List Char) :=
  ["salary".data, "compensation".data, "fees".data, "payment".data,
   "remuneration".data]
def classify_kw_indemnity : List (List Char) :=
  ["indemnify".data, "liability".data, "damages".data, "losses".data]
def classify_kw_dispute : List (List Char) :=
  ["arbitration".data, "jurisdiction".data, "governing law".data]

/-- The first-match-wins cascade of `classify_clause` on the lowered text. -/
def classifyLow (text : List Char) : String :=
  if hasAny classify_kw_termination text then "Termination"
  else if hasAny classify_kw_noncompete text then "Non-Compete"
  else if hasAny classify_kw_confidentiality text then "Confidentiality"
  else if hasAny classify_kw_compensation text then "Compensation"
  else if hasAny classify_kw_indemnity text then "Indemnity & Liability"
  else if hasAny classify_kw_dispute text then "Dispute Resolution"
  else "General"

/-- The risk-time classifier `classify_clause` (clause_risk.py, lines 8-53). -/
def classify_clause (clause : List Char) : String :=
  classifyLow (lowerL clause)

/-- The `critical_red_flags` list of `assess_risk`. -/
def critical_red_flags : List (List Char) :=
  ["sole discretion".data, "without notice".data, "at any time".data,
   "irrevocable".data, "in perpetuity".data, "unlimited liability".data]

/-- The `ambiguity_terms` list of `assess_risk`. -/
def ambiguity_terms : List (List Char) :=
  ["reasonable".data, "best efforts".data, "as soon as possible".data,
   "from time to time".data, "material".data]

/-- Currency markers checked in the Compensation branch. -/
def currency_markers : List (List Char) :=
  ["₹".data, "inr".data, "rs.".data, "$".data]

def termination_boost_kws : List (List Char) :=
  ["without notice".data, "immediate termination".data]
def confidentiality_boost_kws : List (List Char) :=
  ["forever".data, "in perpetuity".data]

/-- Contribution of the type-specific branch of `assess_risk` (score delta and
the reasons/suggestions/tags appended in that branch, in order). -/
structure TypeBranch where
  score : Nat
  reasons : List String
  suggestions : List String
  tags : List String
deriving DecidableEq

/-- The `if clause_type == ... / elif ... / else` cascade of `assess_risk`
(clause_risk.py, lines 96-171), lowered text as input. -/
def typeBranch (text : List Char) (clause_type : String) : TypeBranch :=
  if clause_type = "Termination" then
    if hasAny termination_boost_kws text then
      ⟨50, ["Termination without adequate notice."],
       ["Introduce minimum notice period (e.g., 30 days)."],
       ["Employment Risk", "High Impact"]⟩
    else ⟨20, [], [], ["Employment Risk"]⟩
  else if clause_type = "Non-Compete" then
    ⟨35, ["Restricts future employment opportunities."],
     ["Limit non-compete by duration, geography, and business scope."],
     ["Post-Termination Risk"]⟩
  else if clause_type = "Confidentiality" then
    if hasAny confidentiality_boost_kws text then
      ⟨25, ["Standard confidentiality obligation.",
            "Confidentiality obligation has no end date."],
       ["Limit confidentiality to 2–5 years."], ["IP Protection"]⟩
    else ⟨10, ["Standard confidentiality obligation."], [], ["IP Protection"]⟩
  else if clause_type = "Compensation" then
    if hasAny currency_markers text then
      ⟨5, ["Compensation terms are defined."], [], []⟩
    else
      ⟨25, ["Compensation amount is unclear or missing."],
       ["Specify clear payment amount and schedule."], ["Financial Risk"]⟩
  else if clause_type = "Indemnity & Liability" then
    ⟨30, ["Broad indemnity or liability exposure."],
     ["Cap liability and exclude indirect or consequential damages."],
     ["Financial Exposure"]⟩
  else if clause_type = "Dispute Resolution" then
    if isSub "sole arbitrator appointed by".data text then
      ⟨30, ["Unilateral arbitrator appointment."],
       ["Provide mutual appointment mechanism."], ["Legal Process"]⟩
    else ⟨10, [], [], ["Legal Process"]⟩
  else ⟨5, ["General contractual obligation."], [], []⟩

/-- Half-even ("banker's") rounding to an integer, Python `round`'s tie rule. -/
def rndHalfEven (x : ℚ) : ℤ :=
  let f := ⌊x⌋
  let r := x - f
  if r < 1/2 then f
  else if (1 : ℚ)/2 < r then f + 1
  else if f % 2 = 0 then f else f + 1

/-- Python `round(x, 2)` modelled exactly on rationals. -/
def pyRound2 (x : ℚ) : ℚ :=
  (rndHalfEven (x * 100) : ℚ) / 100

/-- Result record of `assess_risk`. -/
structure RiskAssessment where
  type : String
  risk_level : String
  score : Nat
  confidence : ℚ
  negotiation_priority : String
  reasons : List String
  suggestions : List String
  tags : List String
deriving DecidableEq

/-- The risk scorer `assess_risk` (clause_risk.py, lines 60-215).  The score
is the type-branch base plus the ambiguity boost plus the red-flag boost, in
the evaluation order of the source. -/
def assess_risk (clause : List Char) : RiskAssessment :=
  let text := lowerL clause
  let clause_type := classify_clause clause
  let tb := typeBranch text clause_type
  let ambiguous := hasAny ambiguity_terms text
  let flagged := hasAny critical_red_flags text
  let score := tb.score + (if ambiguous then 10 else 0) + (if flagged then 20 else 0)
  let reasons := tb.reasons
      ++ (if ambiguous then ["Uses ambiguous or subjective language."] else [])
      ++ (if flagged then ["Contains critical red-flag language."] else [])
  let suggestions := tb.suggestions
      ++ (if ambiguous then ["Replace vague terms with measurable obligations."] else [])
  let tags := tb.tags
      ++ (if ambiguous then ["Ambiguity"] else [])
      ++ (if flagged then ["Critical"] else [])
  let risk_level :=
    if 60 ≤ score then "High" else if 30 ≤ score then "Medium" else "Low"
  let negotiation_priority :=
    if 60 ≤ score then "Immediate" else if 30 ≤ score then "Recommended" else "Optional"
  let confidence := min (95/100 : ℚ) (6/10 + (score : ℚ) / 120)
  { type := clause_type
    risk_level := risk_level
    score := score
    confidence := pyRound2 confidence
    negotiation_priority := negotiation_priority
    reasons := reasons
    suggestions := if suggestions = [] then ["No immediate action required."] else suggestions
    tags := tags }

/-- The score of `assess_risk` as a function of the lowered text alone. -/
def scoreLow (text : List Char) : Nat :=
  (typeBranch text (classifyLow text)).score
    + (if hasAny ambiguity_terms text then 10 else 0)
    + (if hasAny critical_red_flags text then 20 else 0)


-- =====================================================
-- Clause extractor  (clause_extractor.py)
-- =====================================================

/-- The heading detector `_is_heading`: stripped line fully upper-case
(Python `str.isupper`: at least one cased character, no lower-case one;
ASCII model) with `5 < len(line) <= 60`. -/
def is_heading (line : List Char) : Bool :=
  let l := trimL line
  (l.any fun c => c.isAlpha) && (l.all fun c => !c.isLower)
    && (decide (5 < l.length) && decide (l.length ≤ 60))

def guess_kw_security : List (List Char) :=
  ["security deposit".data, "advance deposit".data, "refundable".data, "refund".data]
/-- Keywords of the payment rule; the last entry is the literal three-character
mojibake sequence found in the source file (UTF-8 of the rupee sign decoded as
Latin-1). -/
def guess_kw_payment : List (List Char) :=
  ["salary".data, "wages".data, "rent".data, "payable".data, "payment".data,
   "electricity".data, "charges".data, "meter reading".data, "rupees".data,
   "â‚¹".data]
def guess_kw_maintenance : List (List Char) :=
  ["maintain".data, "maintenance".data, "good condition".data, "repair".data,
   "restore".data, "handing over".data, "vacant possession".data,
   "deliver the premises".data]
def guess_kw_use : List (List Char) :=
  ["residential purpose".data, "not sub-let".data, "sublet".data,
   "illegal activities".data, "alteration".data, "additional fittings".data,
   "structures".data]
def guess_kw_termination : List (List Char) :=
  ["terminate".data, "termination".data, "dismiss".data, "evicted".data,
   "eviction".data, "without notice".data, "may terminate at any time".data]
def guess_kw_notice : List (List Char) :=
  ["notice".data, "vacating".data, "vacate".data, "vacation".data,
   "required to give".data, "three months notice".data, "90 days notice".data,
   "30 days notice".data]
/-- Alternation `non[- ]?compete|restriction after termination`. -/
def guess_kw_noncompete : List (List Char) :=
  ["non-compete".data, "non compete".data, "noncompete".data,
   "restriction after termination".data]
def guess_kw_confidentiality : List (List Char) :=
  ["confidential".data, "non-disclosure".data, "nda".data]
def guess_kw_indemnity : List (List Char) :=
  ["indemnify".data, "indemnity".data, "hold harmless".data, "liable".data]
def guess_kw_governing : List (List Char) :=
  ["governing law".data, "jurisdiction".data, "courts at".data]
def guess_kw_force : List (List Char) :=
  ["force majeure".data, "act of god".data]

/-- The segmentation-time classifier `guess_clause_type`
(clause_extractor.py, lines 33-99): ordered first-match-wins cascade of
literal-alternation regexes over the lowered text. -/
def guess_clause_type (text : List Char) : String :=
  let t := lowerL text
  if hasAny guess_kw_security t then "Security Deposit & Refund"
  else if hasAny guess_kw_payment t then "Payment & Financial Terms"
  else if hasAny guess_kw_maintenance t then "Maintenance & Handover"
  else if hasAny guess_kw_use t then "Use of Premises & Restrictions"
  else if hasAny guess_kw_termination t then "Termination"
  else if hasAny guess_kw_notice t then "Notice & Possession"
  else if hasAny guess_kw_noncompete t then "Non-Compete"
  else if hasAny guess_kw_confidentiality t then "Confidentiality"
  else if hasAny guess_kw_indemnity t then "Indemnity & Liability"
  else if hasAny guess_kw_governing t then "Governing Law & Jurisdiction"
  else if hasAny guess_kw_force t then "Force Majeure"
  else "General"

/-- Quality record of `analyze_clause_quality`. -/
structure Quality where
  length : Nat
  sentences : Nat
  quality_score : ℚ
  warnings : List String
deriving DecidableEq, Inhabited

/-- The quality analyzer `analyze_clause_quality` (clause_extractor.py,
lines 106-129): `sentences` counts `.`/`!`/`?` occurrences,
`quality_score = round(max(0.4, min(1.0, sentences/5 + length/800)), 2)`. -/
def analyze_clause_quality (text : List Char) : Quality :=
  let length := text.length
  let sentences := text.countP fun c => c = '.' || c = '!' || c = '?'
  let warnings :=
    (if length < 50 then ["Clause is unusually short"] else [])
      ++ (if 1200 < length then ["Clause is unusually long (possible merge)"] else [])
      ++ (if sentences = 0 then ["No sentence structure detected"] else [])
  ⟨length, sentences,
   pyRound2 (max (4/10 : ℚ) (min 1 ((sentences : ℚ)/5 + (length : ℚ)/800))),
   warnings⟩

/-- The action rule `decide_action` (clause_extractor.py, lines 136-141). -/
def decide_action (q : Quality) : String :=
  if q.warnings ≠ [] then "Review Required"
  else if q.quality_score < 6/10 then "Rewrite Suggested"
  else "Looks Acceptable"

/-- A clause record as emitted by `extract_clauses`. -/
structure Clause where
  clause_id : Nat
  title : Option (List Char)
  text : List Char
  type_hint : String
  quality : Quality
  action : String
  source : String
deriving DecidableEq, Inhabited

/-- Assembly of one emitted clause record (the dict built at each emission
site of `extract_clauses`). -/
def mkClause (id : Nat) (title : Option (List Char)) (text : List Char)
    (src : String) : Clause :=
  let quality := analyze_clause_quality text
  ⟨id, title, text, guess_clause_type text, quality, decide_action quality, src⟩

/-- Deterministic scanner for the tail of the numbered-line pattern
`^\d+(\.\d+)*[\)\.]?\s+`, entered after the leading digits; fuel-indexed
structural recursion (the fuel never runs out when called with
`length + 1`). -/
def numTailGo : Nat → List Char → Bool
  | _, [] => false
  | 0, _ => false
  | fuel + 1, c :: rest =>
    if c = '.' then
      match rest with
      | [] => false
      | d :: _ =>
        if d.isDigit then numTailGo fuel (rest.dropWhile Char.isDigit)
        else isWsC d
    else if c = ')' then
      match rest with
      | [] => false
      | e :: _ => isWsC e
    else isWsC c

/-- Python `number_pattern.match(line)` for
`^\d+(\.\d+)*[\)\.]?\s+` (clause_extractor.py, line 180). -/
def numberedL (line : List Char) : Bool :=
  if line.takeWhile Char.isDigit = ([] : List Char) then false
  else numTailGo (line.length + 1) (line.dropWhile Char.isDigit)

/-- One clause emission (`clauses.append({...})`) with the current buffer. -/
def flushClause (clauses : List Clause) (current : List (List Char))
    (title : Option (List Char)) (clause_id : Nat) (source : String) :
    List Clause :=
  clauses ++ [mkClause clause_id title (joinSp current) source]

/-- The heading/numbered/paragraph line loop of `extract_clauses`
(clause_extractor.py, lines 182-246), with the final-buffer flush. -/
def paraGo : List Clause → List (List Char) → Option (List Char) → Nat →
    String → List (List Char) → List Clause
  | clauses, current, title, clause_id, source, [] =>
    if current = [] then clauses
    else flushClause clauses current title clause_id source
  | clauses, current, title, clause_id, source, rawLine :: rest =>
    if trimL rawLine = [] then paraGo clauses current title clause_id source rest
    else if is_heading (trimL rawLine) then
      if current = [] then
        paraGo clauses current (some (trimL rawLine)) clause_id "heading" rest
      else
        paraGo (flushClause clauses current title clause_id source) []
          (some (trimL rawLine)) (clause_id + 1) "heading" rest
    else if numberedL (trimL rawLine) then
      if current = [] then
        paraGo clauses [trimL rawLine] none clause_id "numbered" rest
      else
        paraGo (flushClause clauses current title clause_id source) [trimL rawLine]
          none (clause_id + 1) "numbered" rest
    else paraGo clauses (current ++ [trimL rawLine]) title clause_id source rest

/-- The paragraph-strategy result on already-cleaned text. -/
def paraResult (cleaned : List Char) : List Clause :=
  paraGo [] [] none 1 "paragraph" (splitNl cleaned)

/-- Case-insensitive literal match at the start of `cs`. -/
def matchCI (pat cs : List Char) : Bool :=
  pat.isPrefixOf (lowerL (cs.take pat.length))

/-- First lookahead alternative `the\s+(employee|employer)` of the
sentence-split pattern; returns the characters captured by group 1. -/
def legalAlt1 (cs : List Char) : Option (List Char) :=
  if matchCI "the".data cs then
    let r1 := cs.drop 3
    let r2 := r1.dropWhile isWsC
    if r2.length < r1.length then
      if matchCI "employee".data r2 || matchCI "employer".data r2 then
        some (r2.take 8)
      else none
    else none
  else none

/-- Lookahead alternative `first\s+second` (no capture group). -/
def legalAlt2 (first second cs : List Char) : Bool :=
  if matchCI first cs then
    let r1 := cs.drop first.length
    let r2 := r1.dropWhile isWsC
    decide (r2.length < r1.length) && matchCI second r2
  else false

/-- The full lookahead of the sentence-split pattern: `none` if no
alternative matches at this position; otherwise `some g` where `g` is the
value of capture group 1 (`some _` for the first alternative, `none` — Python
`None` — for the other four). -/
def legalLook (cs : List Char) : Option (Option (List Char)) :=
  match legalAlt1 cs with
  | some cap => some (some cap)
  | none =>
    if legalAlt2 "employee".data "shall".data cs
        || legalAlt2 "employer".data "may".data cs
        || legalAlt2 "shall".data "receive".data cs
        || legalAlt2 "shall".data "not".data cs
    then some none
    else none

/-- Scanner for
`re.split(r"(?i)(?<=\.)\s+(?=the\s+(employee|employer)|employee\s+shall|employer\s+may|shall\s+receive|shall\s+not)", block)`
(clause_extractor.py, lines 255-259).  A split point is a maximal whitespace
run preceded by `.` and followed by a matching lookahead; `re.split` then
interleaves the split pieces with the value of the capture group — which is
Python `None` (here `Option.none`) whenever the matched alternative is not
the first one. -/
def lsGo : Nat → Char → List Char → List Char → List (Option (List Char))
  | 0, _, acc, rest => [some (acc ++ rest)]
  | _ + 1, _, acc, [] => [some acc]
  | fuel + 1, prev, acc, c :: rest =>
    if prev == '.' && isWsC c then
      match legalLook (rest.dropWhile isWsC) with
      | some g => some acc :: g :: lsGo fuel ' ' [] (rest.dropWhile isWsC)
      | none => lsGo fuel c (acc ++ [c]) rest
    else lsGo fuel c (acc ++ [c]) rest

/-- The sentence-split of the sole paragraph block. -/
def legalSplit (block : List Char) : List (Option (List Char)) :=
  lsGo (block.length + 1) '\x00' [] block

/-- One record of the sentence-split fallback. -/
def sentClause (idx : Nat) (s : List Char) : Clause :=
  mkClause idx none s "sentence-split"

/-- The `for idx, s in enumerate(sentences, 1)` loop of the sentence-split
fallback (clause_extractor.py, lines 262-278): `s.strip()` on the Python
`None` inserted by `re.split` raises `AttributeError`, modelled as
`Except.error`; fragments shorter than 40 characters are skipped, and the
`clause_id` of an emitted record is its 1-based position `idx` in the raw
split list. -/
def buildSent : Nat → List (Option (List Char)) → Except Unit (List Clause)
  | _, [] => .ok []
  | _, none :: _ => .error ()
  | idx, some s :: rest =>
    if (trimL s).length < 40 then buildSent (idx + 1) rest
    else
      match buildSent (idx + 1) rest with
      | .error e => .error e
      | .ok tail => .ok (sentClause idx (trimL s) :: tail)

/-- Character class `[\nâ€¢\-â€“â€”]` of the OCR fallback pattern, the
literal characters present in the source file. -/
def ocrSep : List Char :=
  ['\n', 'â', '€', '¢', '-', '“', '”']

/-- Scanner for `re.split(r"(?<=[\.\!\?])\s+|[\nâ€¢\-â€“â€”]+", block)`
(clause_extractor.py, lines 288-291): split on maximal whitespace runs
preceded by `.`/`!`/`?`, or on maximal runs of the separator class. -/
def roGo : Nat → Char → List Char → List Char → List (List Char)
  | 0, _, acc, rest => [acc ++ rest]
  | _ + 1, _, acc, [] => [acc]
  | fuel + 1, prev, acc, c :: rest =>
    if (prev == '.' || prev == '!' || prev == '?') && isWsC c then
      acc :: roGo fuel ' ' [] (rest.dropWhile isWsC)
    else if c ∈ ocrSep then
      acc :: roGo fuel '-' [] (rest.dropWhile (· ∈ ocrSep))
    else roGo fuel c (acc ++ [c]) rest

/-- The rough sentence split of the OCR fallback. -/
def roughSplit (block : List Char) : List (List Char) :=
  roGo (block.length + 1) '\x00' [] block

/-- One record of the OCR fallback. -/
def ocrClause (cid : Nat) (s : List Char) : Clause :=
  mkClause cid none s "ocr-fallback"

/-- The rebuild loop of the OCR fallback (clause_extractor.py, lines
293-315): fragments under 25 characters are skipped and `clause_id` is a
dedicated counter incremented only on emission. -/
def buildOcr : Nat → List (List Char) → List Clause
  | _, [] => []
  | cid, s :: rest =>
    if (trimL s).length < 25 then buildOcr cid rest
    else ocrClause cid (trimL s) :: buildOcr (cid + 1) rest

/-- The OCR/degraded-text fallback (clause_extractor.py, lines 285-318):
adopt the rebuilt list only when it has at least 3 records, else keep the
paragraph-strategy result. -/
def ocrStage (text : List Char) (clauses : List Clause) :
    Except Unit (List Clause) :=
  if 3 ≤ (buildOcr 1 (roughSplit (trimL text))).length
  then .ok (buildOcr 1 (roughSplit (trimL text)))
  else .ok clauses

/-- The main engine `extract_clauses` (clause_extractor.py, lines 165-322).
`Except.error ()` models the `AttributeError` raised when the sentence-split
loop meets the `None` inserted by `re.split` for the non-participating
capture group. -/
def extract_clauses (input : List Char) : Except Unit (List Clause) :=
  match paraResult (cleanL input) with
  | [c] =>
    if 3 ≤ (legalSplit c.text).length then
      match buildSent 1 (legalSplit c.text) with
      | .error e => .error e
      | .ok new_clauses =>
        if 1 < new_clauses.length then .ok new_clauses
        else ocrStage (cleanL input) [c]
    else ocrStage (cleanL input) [c]
  | clauses => .ok clauses

instance : DecidableEq (Except Unit (List Clause)) := fun a b =>
  match a, b with
  | .ok x, .ok y => if h : x = y then .isTrue (by rw [h]) else .isFalse (by simp [h])
  | .error x, .error y => .isTrue (by rw [Subsingleton.elim x y])
  | .ok _, .error _ => .isFalse (by simp)
  | .error _, .ok _ => .isFalse (by simp)


-- =====================================================
-- Toolkit: substring lemmas
-- =====================================================

theorem isSub_iff {p u : List Char} : isSub p u = true ↔ p <:+: u := by
  unfold isSub
  rw [List.any_eq_true]
  constructor
  · rintro ⟨t, ht, hp⟩
    rw [List.mem_tails] at ht
    rw [List.isPrefixOf_iff_prefix] at hp
    exact List.infix_iff_prefix_suffix.2 ⟨t, hp, ht⟩
  · intro h
    obtain ⟨t, hp, ht⟩ := List.infix_iff_prefix_suffix.1 h
    exact ⟨t, (List.mem_tails _ _).2 ht, List.isPrefixOf_iff_prefix.2 hp⟩

theorem isSub_false_iff {p u : List Char} : isSub p u = false ↔ ¬ p <:+: u := by
  rw [← isSub_iff]
  cases isSub p u <;> simp

theorem isSub_mono_append {p u v : List Char} (h : isSub p u = true) :
    isSub p (u ++ v) = true := by
  rw [isSub_iff] at h ⊢
  exact h.trans (List.prefix_append u v).isInfix

/-- A pattern occurring in a concatenation occurs in the left part, in the
right part, or spans the junction. -/
theorem infix_append_cases {p u v : List Char} (h : p <:+: u ++ v) :
    p <:+: u ∨ p <:+: v ∨
      ∃ j, 0 < j ∧ j < p.length ∧ (p.take j) <:+ u ∧ (p.drop j) <+: v := by
  obtain ⟨s, t, hst⟩ := h
  rcases List.append_eq_append_iff.1 hst with ⟨e, he, _⟩ | ⟨e, hs, hv⟩
  · exact Or.inl ⟨s, e, he.symm⟩
  · rcases List.append_eq_append_iff.1 hs with ⟨f, hu, hp⟩ | ⟨f, _, he⟩
    · rcases eq_or_ne e [] with rfl | hene
      · rw [List.append_nil] at hp
        exact Or.inl ⟨s, [], by rw [List.append_nil, hu, hp]⟩
      · rcases eq_or_ne f [] with rfl | hfne
        · rw [List.nil_append] at hp
          exact Or.inr (Or.inl ⟨[], t, by rw [List.nil_append, hv, hp]⟩)
        · refine Or.inr (Or.inr ⟨f.length, ?_, ?_, ?_, ?_⟩)
          · simpa [List.length_pos] using hfne
          · rw [hp, List.length_append]
            have : 0 < e.length := List.length_pos.2 hene
            omega
          · rw [hp, List.take_left]
            exact ⟨s, hu.symm⟩
          · rw [hp, List.drop_left]
            exact ⟨t, hv.symm⟩
    · exact Or.inr (Or.inl ⟨f, t, by rw [hv, he]⟩)

/-- Decidable sufficient condition that appending `w` to the right of any
text never creates a new occurrence of `k`: `k` does not occur inside `w`,
and no nonempty proper suffix of `k` is a prefix of `w`. -/
def noCreate (k w : List Char) : Bool :=
  !(isSub k w) && ((List.range k.length).all fun j =>
    decide (j = 0) || !((k.drop j).isPrefixOf w))

theorem isSub_append_eq_of_noCreate {k u w : List Char}
    (h : noCreate k w = true) : isSub k (u ++ w) = isSub k u := by
  unfold noCreate at h
  rw [Bool.and_eq_true, Bool.not_eq_true', List.all_eq_true] at h
  obtain ⟨hw, hj⟩ := h
  cases hs : isSub k u with
  | true => exact isSub_mono_append hs
  | false =>
    cases hins : isSub k (u ++ w) with
    | false => rfl
    | true =>
      exfalso
      rw [isSub_false_iff] at hs
      rw [isSub_iff] at hins
      rcases infix_append_cases hins with hu | hw2 | ⟨j, hj0, hjlen, _, hdrop⟩
      · exact hs hu
      · rw [isSub_false_iff] at hw
        exact hw hw2
      · have hmem := hj j (List.mem_range.2 hjlen)
        rw [Bool.or_eq_true, decide_eq_true_iff, Bool.not_eq_true'] at hmem
        rcases hmem with h0 | hpf
        · omega
        · have : (k.drop j).isPrefixOf w = true :=
            List.isPrefixOf_iff_prefix.2 hdrop
          rw [this] at hpf
          cases hpf

theorem hasAny_mono_append {kws : List (List Char)} {u v : List Char}
    (h : hasAny kws u = true) : hasAny kws (u ++ v) = true := by
  unfold hasAny at h ⊢
  rw [List.any_eq_true] at h ⊢
  obtain ⟨p, hp, hsub⟩ := h
  exact ⟨p, hp, isSub_mono_append hsub⟩

theorem hasAny_append_eq {kws : List (List Char)} {u w : List Char}
    (h : (kws.all fun k => noCreate k w) = true) :
    hasAny kws (u ++ w) = hasAny kws u := by
  rw [List.all_eq_true] at h
  unfold hasAny
  induction kws with
  | nil => rfl
  | cons k ks ih =>
    simp only [List.any_cons]
    rw [isSub_append_eq_of_noCreate (h k (by simp)),
      ih fun x hx => h x (by simp [hx])]

theorem isSub_append_self {p u : List Char} (sep : Char) :
    isSub p (u ++ sep :: p) = true := by
  rw [isSub_iff]
  exact List.IsSuffix.isInfix
    (List.IsSuffix.trans ⟨[sep], rfl⟩ (List.suffix_append u (sep :: p)))

theorem isSub_of_right {p u w : List Char} (h : isSub p w = true) :
    isSub p (u ++ w) = true := by
  rw [isSub_iff] at h ⊢
  exact h.trans (List.suffix_append u w).isInfix

theorem lowerL_append (a b : List Char) :
    lowerL (a ++ b) = lowerL a ++ lowerL b :=
  List.map_append _ a b

theorem lowerL_cons (c : Char) (a : List Char) :
    lowerL (c :: a) = c.toLower :: lowerL a :=
  List.map_cons _ c a

theorem tb_score_term (u : List Char) :
    (typeBranch u "Termination").score =
      if hasAny termination_boost_kws u then 50 else 20 := by
  unfold typeBranch
  rw [if_pos rfl]
  split <;> rfl

theorem tb_score_conf (u : List Char) :
    (typeBranch u "Confidentiality").score =
      if hasAny confidentiality_boost_kws u then 25 else 10 := by
  unfold typeBranch
  rw [if_neg (by decide), if_neg (by decide), if_pos rfl]
  split <;> rfl

theorem tb_score_comp (u : List Char) :
    (typeBranch u "Compensation").score =
      if hasAny currency_markers u then 5 else 25 := by
  unfold typeBranch
  rw [if_neg (by decide), if_neg (by decide), if_neg (by decide), if_pos rfl]
  split <;> rfl

theorem tb_score_disp (u : List Char) :
    (typeBranch u "Dispute Resolution").score =
      if isSub "sole arbitrator appointed by".data u then 30 else 10 := by
  unfold typeBranch
  rw [if_neg (by decide), if_neg (by decide), if_neg (by decide),
    if_neg (by decide), if_neg (by decide), if_pos rfl]
  split <;> rfl

theorem tb_score_nc (u : List Char) :
    (typeBranch u "Non-Compete").score = 35 := by
  unfold typeBranch
  rw [if_neg (by decide), if_pos rfl]

theorem tb_score_ind (u : List Char) :
    (typeBranch u "Indemnity & Liability").score = 30 := by
  unfold typeBranch
  rw [if_neg (by decide), if_neg (by decide), if_neg (by decide),
    if_neg (by decide), if_pos rfl]

theorem tb_score_other (u : List Char) {ct : String}
    (h1 : ct ≠ "Termination") (h2 : ct ≠ "Non-Compete")
    (h3 : ct ≠ "Confidentiality") (h4 : ct ≠ "Compensation")
    (h5 : ct ≠ "Indemnity & Liability") (h6 : ct ≠ "Dispute Resolution") :
    (typeBranch u ct).score = 5 := by
  unfold typeBranch
  rw [if_neg h1, if_neg h2, if_neg h3, if_neg h4, if_neg h5, if_neg h6]

/-- The type-branch score only grows when text is appended on the right,
provided the currency test is unchanged (the Compensation branch awards the
larger base exactly when no currency marker occurs). -/
theorem typeBranch_score_mono (ct : String) {u w : List Char}
    (hcur : hasAny currency_markers (u ++ w) = hasAny currency_markers u) :
    (typeBranch u ct).score ≤ (typeBranch (u ++ w) ct).score := by
  by_cases h1 : ct = "Termination"
  · subst h1
    rw [tb_score_term, tb_score_term]
    cases hb : hasAny termination_boost_kws u with
    | false =>
      rw [if_neg (by simp)]
      split <;> omega
    | true => rw [hasAny_mono_append hb]
  · by_cases h2 : ct = "Non-Compete"
    · subst h2
      rw [tb_score_nc, tb_score_nc]
    · by_cases h3 : ct = "Confidentiality"
      · subst h3
        rw [tb_score_conf, tb_score_conf]
        cases hb : hasAny confidentiality_boost_kws u with
        | false =>
          rw [if_neg (by simp)]
          split <;> omega
        | true => rw [hasAny_mono_append hb]
      · by_cases h4 : ct = "Compensation"
        · subst h4
          rw [tb_score_comp, tb_score_comp, hcur]
        · by_cases h5 : ct = "Indemnity & Liability"
          · subst h5
            rw [tb_score_ind, tb_score_ind]
          · by_cases h6 : ct = "Dispute Resolution"
            · subst h6
              rw [tb_score_disp, tb_score_disp]
              cases hb : isSub "sole arbitrator appointed by".data u with
              | false =>
                rw [if_neg (by simp)]
                split <;> omega
              | true => rw [isSub_mono_append hb]
            · rw [tb_score_other u h1 h2 h3 h4 h5 h6,
                tb_score_other (u ++ w) h1 h2 h3 h4 h5 h6]

theorem classifyLow_congr {u v : List Char}
    (e1 : hasAny classify_kw_termination v = hasAny classify_kw_termination u)
    (e2 : hasAny classify_kw_noncompete v = hasAny classify_kw_noncompete u)
    (e3 : hasAny classify_kw_confidentiality v = hasAny classify_kw_confidentiality u)
    (e4 : hasAny classify_kw_compensation v = hasAny classify_kw_compensation u)
    (e5 : hasAny classify_kw_indemnity v = hasAny classify_kw_indemnity u)
    (e6 : hasAny classify_kw_dispute v = hasAny classify_kw_dispute u) :
    classifyLow v = classifyLow u := by
  unfold classifyLow
  rw [e1, e2, e3, e4, e5, e6]

theorem classifyLow_term {v : List Char}
    (h1 : hasAny classify_kw_termination v = true) :
    classifyLow v = "Termination" := by
  simp [classifyLow, h1]

theorem classifyLow_ind {v : List Char}
    (h1 : hasAny classify_kw_termination v = false)
    (h2 : hasAny classify_kw_noncompete v = false)
    (h3 : hasAny classify_kw_confidentiality v = false)
    (h4 : hasAny classify_kw_compensation v = false)
    (h5 : hasAny classify_kw_indemnity v = true) :
    classifyLow v = "Indemnity & Liability" := by
  simp [classifyLow, h1, h2, h3, h4, h5]

theorem classifyLow_disp {v : List Char}
    (h1 : hasAny classify_kw_termination v = false)
    (h2 : hasAny classify_kw_noncompete v = false)
    (h3 : hasAny classify_kw_confidentiality v = false)
    (h4 : hasAny classify_kw_compensation v = false)
    (h5 : hasAny classify_kw_indemnity v = false)
    (h6 : hasAny classify_kw_dispute v = true) :
    classifyLow v = "Dispute Resolution" := by
  simp [classifyLow, h1, h2, h3, h4, h5, h6]

theorem classifyLow_gen {v : List Char}
    (h1 : hasAny classify_kw_termination v = false)
    (h2 : hasAny classify_kw_noncompete v = false)
    (h3 : hasAny classify_kw_confidentiality v = false)
    (h4 : hasAny classify_kw_compensation v = false)
    (h5 : hasAny classify_kw_indemnity v = false)
    (h6 : hasAny classify_kw_dispute v = false) :
    classifyLow v = "General" := by
  simp [classifyLow, h1, h2, h3, h4, h5, h6]

theorem amb_boost_mono {u w : List Char} :
    (if hasAny ambiguity_terms u then 10 else 0) ≤
      (if hasAny ambiguity_terms (u ++ w) then 10 else 0) := by
  cases hb : hasAny ambiguity_terms u with
  | false =>
    rw [if_neg (by simp)]
    split <;> omega
  | true => rw [hasAny_mono_append hb]

/-- Core monotonicity step: when appending `w` does not change the clause
type nor the currency test, and makes the red-flag test true, the score can
only grow. -/
theorem scoreLow_le_of_keep {u w : List Char}
    (hkeep : classifyLow (u ++ w) = classifyLow u)
    (hcur : hasAny currency_markers (u ++ w) = hasAny currency_markers u)
    (hflag : hasAny critical_red_flags (u ++ w) = true) :
    scoreLow u ≤ scoreLow (u ++ w) := by
  unfold scoreLow
  rw [hkeep, hflag, if_pos rfl]
  have h1 := typeBranch_score_mono (classifyLow u) hcur
  have h2 := amb_boost_mono (u := u) (w := w)
  have h3 : (if hasAny critical_red_flags u then 20 else 0) ≤ 20 := by
    split <;> omega
  omega

theorem classifyLow_nc {v : List Char}
    (h1 : hasAny classify_kw_termination v = false)
    (h2 : hasAny classify_kw_noncompete v = true) :
    classifyLow v = "Non-Compete" := by
  simp [classifyLow, h1, h2]

theorem classifyLow_conf {v : List Char}
    (h1 : hasAny classify_kw_termination v = false)
    (h2 : hasAny classify_kw_noncompete v = false)
    (h3 : hasAny classify_kw_confidentiality v = true) :
    classifyLow v = "Confidentiality" := by
  simp [classifyLow, h1, h2, h3]

theorem classifyLow_comp {v : List Char}
    (h1 : hasAny classify_kw_termination v = false)
    (h2 : hasAny classify_kw_noncompete v = false)
    (h3 : hasAny classify_kw_confidentiality v = false)
    (h4 : hasAny classify_kw_compensation v = true) :
    classifyLow v = "Compensation" := by
  simp [classifyLow, h1, h2, h3, h4]

/-- Monotonicity core: appending a space and any critical red-flag phrase to
the lowered text never lowers the score computed by `assess_risk`. -/
theorem scoreLow_mono_flag {u p : List Char} (hp : p ∈ critical_red_flags) :
    scoreLow u ≤ scoreLow (u ++ ' ' :: p) := by
  have hflag : hasAny critical_red_flags (u ++ ' ' :: p) = true := by
    unfold hasAny
    rw [List.any_eq_true]
    exact ⟨p, hp, isSub_append_self ' '⟩
  simp only [critical_red_flags] at hp
  fin_cases hp
  · exact scoreLow_le_of_keep
      (classifyLow_congr (hasAny_append_eq (by decide)) (hasAny_append_eq (by decide))
        (hasAny_append_eq (by decide)) (hasAny_append_eq (by decide))
        (hasAny_append_eq (by decide)) (hasAny_append_eq (by decide)))
      (hasAny_append_eq (by decide)) hflag
  · exact scoreLow_le_of_keep
      (classifyLow_congr (hasAny_append_eq (by decide)) (hasAny_append_eq (by decide))
        (hasAny_append_eq (by decide)) (hasAny_append_eq (by decide))
        (hasAny_append_eq (by decide)) (hasAny_append_eq (by decide)))
      (hasAny_append_eq (by decide)) hflag
  · exact scoreLow_le_of_keep
      (classifyLow_congr (hasAny_append_eq (by decide)) (hasAny_append_eq (by decide))
        (hasAny_append_eq (by decide)) (hasAny_append_eq (by decide))
        (hasAny_append_eq (by decide)) (hasAny_append_eq (by decide)))
      (hasAny_append_eq (by decide)) hflag
  · exact scoreLow_le_of_keep
      (classifyLow_congr (hasAny_append_eq (by decide)) (hasAny_append_eq (by decide))
        (hasAny_append_eq (by decide)) (hasAny_append_eq (by decide))
        (hasAny_append_eq (by decide)) (hasAny_append_eq (by decide)))
      (hasAny_append_eq (by decide)) hflag
  · exact scoreLow_le_of_keep
      (classifyLow_congr (hasAny_append_eq (by decide)) (hasAny_append_eq (by decide))
        (hasAny_append_eq (by decide)) (hasAny_append_eq (by decide))
        (hasAny_append_eq (by decide)) (hasAny_append_eq (by decide)))
      (hasAny_append_eq (by decide)) hflag
  · -- p = "unlimited liability": the phrase contains the Indemnity keyword
    -- "liability", so the classified type can move to an earlier rule.
    show scoreLow u ≤ scoreLow (u ++ ' ' :: "unlimited liability".data)
    have e1 : hasAny classify_kw_termination (u ++ ' ' :: "unlimited liability".data)
        = hasAny classify_kw_termination u := hasAny_append_eq (by decide)
    have e2 : hasAny classify_kw_noncompete (u ++ ' ' :: "unlimited liability".data)
        = hasAny classify_kw_noncompete u := hasAny_append_eq (by decide)
    have e3 : hasAny classify_kw_confidentiality (u ++ ' ' :: "unlimited liability".data)
        = hasAny classify_kw_confidentiality u := hasAny_append_eq (by decide)
    have e4 : hasAny classify_kw_compensation (u ++ ' ' :: "unlimited liability".data)
        = hasAny classify_kw_compensation u := hasAny_append_eq (by decide)
    have hcur : hasAny currency_markers (u ++ ' ' :: "unlimited liability".data)
        = hasAny currency_markers u := hasAny_append_eq (by decide)
    have hind : hasAny classify_kw_indemnity (u ++ ' ' :: "unlimited liability".data)
        = true := by
      unfold hasAny
      rw [List.any_eq_true]
      exact ⟨"liability".data, by decide, isSub_of_right (by decide)⟩
    by_cases h5 : hasAny classify_kw_indemnity u = true
    · exact scoreLow_le_of_keep
        (classifyLow_congr e1 e2 e3 e4 (by rw [hind, h5])
          (hasAny_append_eq (by decide))) hcur hflag
    · rw [Bool.not_eq_true] at h5
      by_cases h1 : hasAny classify_kw_termination u = true
      · exact scoreLow_le_of_keep
          (by rw [classifyLow_term h1, classifyLow_term (by rw [e1]; exact h1)])
          hcur hflag
      · rw [Bool.not_eq_true] at h1
        by_cases h2 : hasAny classify_kw_noncompete u = true
        · exact scoreLow_le_of_keep
            (by rw [classifyLow_nc h1 h2,
                classifyLow_nc (by rw [e1]; exact h1) (by rw [e2]; exact h2)])
            hcur hflag
        · rw [Bool.not_eq_true] at h2
          by_cases h3 : hasAny classify_kw_confidentiality u = true
          · exact scoreLow_le_of_keep
              (by rw [classifyLow_conf h1 h2 h3,
                  classifyLow_conf (by rw [e1]; exact h1) (by rw [e2]; exact h2)
                    (by rw [e3]; exact h3)])
              hcur hflag
          · rw [Bool.not_eq_true] at h3
            by_cases h4 : hasAny classify_kw_compensation u = true
            · exact scoreLow_le_of_keep
                (by rw [classifyLow_comp h1 h2 h3 h4,
                    classifyLow_comp (by rw [e1]; exact h1) (by rw [e2]; exact h2)
                      (by rw [e3]; exact h3) (by rw [e4]; exact h4)])
                hcur hflag
            · rw [Bool.not_eq_true] at h4
              -- the appended phrase reclassifies the clause as Indemnity &
              -- Liability (base 30), which dominates the Dispute (at most 30)
              -- and General (5) branches once the red-flag boost is counted.
              have hcw : classifyLow (u ++ ' ' :: "unlimited liability".data)
                  = "Indemnity & Liability" :=
                classifyLow_ind (by rw [e1]; exact h1) (by rw [e2]; exact h2)
                  (by rw [e3]; exact h3) (by rw [e4]; exact h4) hind
              have hamb := amb_boost_mono (u := u)
                (w := ' ' :: "unlimited liability".data)
              have hf : (if hasAny critical_red_flags u then 20 else 0) ≤ 20 := by
                split <;> omega
              by_cases h6 : hasAny classify_kw_dispute u = true
              · have hcu : classifyLow u = "Dispute Resolution" :=
                  classifyLow_disp h1 h2 h3 h4 h5 h6
                unfold scoreLow
                rw [hcu, hcw, tb_score_ind, tb_score_disp, hflag, if_pos rfl]
                have harb : (if isSub "sole arbitrator appointed by".data u
                    then 30 else 10) ≤ 30 := by
                  split <;> omega
                omega
              · rw [Bool.not_eq_true] at h6
                have hcu : classifyLow u = "General" :=
                  classifyLow_gen h1 h2 h3 h4 h5 h6
                unfold scoreLow
                rw [hcu, hcw, tb_score_ind,
                  tb_score_other u (by decide) (by decide) (by decide)
                    (by decide) (by decide) (by decide), hflag, if_pos rfl]
                omega

-- =====================================================
-- Toolkit: paragraph-scan lemmas
-- =====================================================

theorem joinSp_cons (x y : List Char) (rest : List (List Char)) :
    joinSp (x :: y :: rest) = x ++ ' ' :: joinSp (y :: rest) := rfl

theorem infix_joinSp_of_mem {x : List Char} {parts : List (List Char)}
    (h : x ∈ parts) : x <:+: joinSp parts := by
  induction parts with
  | nil => cases h
  | cons y rest ih =>
    rcases List.mem_cons.1 h with rfl | hmem
    · cases rest with
      | nil => exact List.infix_rfl
      | cons z zs =>
        exact (List.prefix_append x (' ' :: joinSp (z :: zs))).isInfix
    · cases rest with
      | nil => cases hmem
      | cons z zs =>
        refine (ih hmem).trans ?_
        exact List.IsSuffix.isInfix ⟨y ++ [' '], by rw [joinSp_cons]; simp⟩

theorem text_infix_joinSp {c : Clause} {cs : List Clause} (hc : c ∈ cs) :
    c.text <:+: joinSp (cs.map Clause.text) :=
  infix_joinSp_of_mem (List.mem_map_of_mem Clause.text hc)

theorem paraGo_acc_sub : ∀ (lines : List (List Char)) (clauses : List Clause)
    (current : List (List Char)) (title : Option (List Char)) (cid : Nat)
    (src : String),
    ∃ tail, paraGo clauses current title cid src lines = clauses ++ tail := by
  intro lines
  induction lines with
  | nil =>
    intro clauses current title cid src
    unfold paraGo
    split
    · exact ⟨[], by simp⟩
    · exact ⟨_, rfl⟩
  | cons l rest ih =>
    intro clauses current title cid src
    unfold paraGo
    split
    · exact ih _ _ _ _ _
    · split
      · split
        · exact ih _ _ _ _ _
        · obtain ⟨t, ht⟩ := ih (flushClause clauses current title cid src) []
            (some (trimL l)) (cid + 1) "heading"
          exact ⟨mkClause cid title (joinSp current) src :: t,
            by rw [ht]; simp [flushClause]⟩
      · split
        · split
          · exact ih _ _ _ _ _
          · obtain ⟨t, ht⟩ := ih (flushClause clauses current title cid src)
              [trimL l] none (cid + 1) "numbered"
            exact ⟨mkClause cid title (joinSp current) src :: t,
              by rw [ht]; simp [flushClause]⟩
        · exact ih _ _ _ _ _

theorem paraGo_acc_mem {c : Clause} (lines : List (List Char))
    (clauses : List Clause) (current : List (List Char))
    (title : Option (List Char)) (cid : Nat) (src : String)
    (hc : c ∈ clauses) : c ∈ paraGo clauses current title cid src lines := by
  obtain ⟨t, ht⟩ := paraGo_acc_sub lines clauses current title cid src
  rw [ht]
  exact List.mem_append_left t hc

theorem paraGo_cur_cov : ∀ (lines : List (List Char)) (clauses : List Clause)
    (current : List (List Char)) (title : Option (List Char)) (cid : Nat)
    (src : String) (pc : List Char), pc ∈ current →
    pc <:+: joinSp ((paraGo clauses current title cid src lines).map Clause.text) := by
  intro lines
  induction lines with
  | nil =>
    intro clauses current title cid src pc hpc
    unfold paraGo
    rw [if_neg (List.ne_nil_of_mem hpc)]
    refine (infix_joinSp_of_mem hpc).trans (text_infix_joinSp (c := mkClause cid title (joinSp current) src) ?_)
    simp [flushClause]
  | cons l rest ih =>
    intro clauses current title cid src pc hpc
    unfold paraGo
    split
    · exact ih _ _ _ _ _ _ hpc
    · split
      · split
        · exact absurd hpc (by simp [*])
        · refine (infix_joinSp_of_mem hpc).trans
            (text_infix_joinSp (c := mkClause cid title (joinSp current) src) ?_)
          exact paraGo_acc_mem rest _ [] (some (trimL l)) (cid + 1) "heading"
            (by simp [flushClause])
      · split
        · split
          · exact absurd hpc (by simp [*])
          · refine (infix_joinSp_of_mem hpc).trans
              (text_infix_joinSp (c := mkClause cid title (joinSp current) src) ?_)
            exact paraGo_acc_mem rest _ [trimL l] none (cid + 1) "numbered"
              (by simp [flushClause])
        · exact ih _ _ _ _ _ _ (List.mem_append_left _ hpc)

theorem paraGo_line_cov : ∀ (lines : List (List Char)) (clauses : List Clause)
    (current : List (List Char)) (title : Option (List Char)) (cid : Nat)
    (src : String) (l : List Char), l ∈ lines → trimL l ≠ [] →
    is_heading (trimL l) = false →
    trimL l <:+: joinSp ((paraGo clauses current title cid src lines).map Clause.text) := by
  intro lines
  induction lines with
  | nil =>
    intro _ _ _ _ _ _ hl
    cases hl
  | cons l0 rest ih =>
    intro clauses current title cid src l hl hne hnh
    rcases List.mem_cons.1 hl with rfl | hmem
    · unfold paraGo
      rw [if_neg hne, hnh]
      rw [if_neg (by simp)]
      split
      · split
        · exact paraGo_cur_cov rest _ _ _ _ _ (trimL l) (by simp)
        · exact paraGo_cur_cov rest _ _ _ _ _ (trimL l) (by simp)
      · exact paraGo_cur_cov rest _ _ _ _ _ (trimL l)
          (List.mem_append_right _ (by simp))
    · unfold paraGo
      split
      · exact ih _ _ _ _ _ _ hmem hne hnh
      · split
        · split
          · exact ih _ _ _ _ _ _ hmem hne hnh
          · exact ih _ _ _ _ _ _ hmem hne hnh
        · split
          · split
            · exact ih _ _ _ _ _ _ hmem hne hnh
            · exact ih _ _ _ _ _ _ hmem hne hnh
          · exact ih _ _ _ _ _ _ hmem hne hnh

theorem paraGo_ne : ∀ (lines : List (List Char)) (clauses : List Clause)
    (current : List (List Char)) (title : Option (List Char)) (cid : Nat)
    (src : String),
    (clauses ≠ [] ∨ current ≠ [] ∨
      ∃ l ∈ lines, trimL l ≠ [] ∧ is_heading (trimL l) = false) →
    paraGo clauses current title cid src lines ≠ [] := by
  intro lines
  induction lines with
  | nil =>
    intro clauses current title cid src h
    unfold paraGo
    split
    · rcases h with h | h | ⟨l, hl, _⟩
      · exact h
      · exact absurd (by assumption) h
      · cases hl
    · simp [flushClause]
  | cons l0 rest ih =>
    intro clauses current title cid src h
    unfold paraGo
    split
    · refine ih _ _ _ _ _ ?_
      rcases h with h | h | ⟨l, hl, hl2⟩
      · exact Or.inl h
      · exact Or.inr (Or.inl h)
      · rcases List.mem_cons.1 hl with rfl | hmem
        · exact absurd (by assumption) hl2.1
        · exact Or.inr (Or.inr ⟨l, hmem, hl2⟩)
    · split
      · split
        · refine ih _ _ _ _ _ ?_
          rcases h with h | h | ⟨l, hl, hl2⟩
          · exact Or.inl h
          · exact absurd (by assumption) h
          · rcases List.mem_cons.1 hl with rfl | hmem
            · have htrue : is_heading (trimL l) = true := by assumption
              rw [htrue] at hl2
              exact absurd hl2.2 (by simp)
            · exact Or.inr (Or.inr ⟨l, hmem, hl2⟩)
        · exact ih _ _ _ _ _ (Or.inl (by simp [flushClause]))
      · split
        · split
          · exact ih _ _ _ _ _ (Or.inr (Or.inl (by simp)))
          · exact ih _ _ _ _ _ (Or.inl (by simp [flushClause]))
        · exact ih _ _ _ _ _ (Or.inr (Or.inl (by simp)))

theorem paraGo_ids : ∀ (lines : List (List Char)) (clauses : List Clause)
    (current : List (List Char)) (title : Option (List Char)) (cid : Nat)
    (src : String),
    clauses.map Clause.clause_id = List.range' 1 clauses.length →
    cid = clauses.length + 1 →
    (paraGo clauses current title cid src lines).map Clause.clause_id
      = List.range' 1 (paraGo clauses current title cid src lines).length := by
  intro lines
  induction lines with
  | nil =>
    intro clauses current title cid src hids hcid
    unfold paraGo
    split
    · exact hids
    · simp only [flushClause, List.map_append, List.length_append, hids]
      simp [hcid, List.range'_concat, mkClause, Nat.add_comm]
  | cons l0 rest ih =>
    intro clauses current title cid src hids hcid
    have hflush : (flushClause clauses current title cid src).map Clause.clause_id
        = List.range' 1 (flushClause clauses current title cid src).length := by
      simp only [flushClause, List.map_append, List.length_append, hids]
      simp [hcid, List.range'_concat, mkClause, Nat.add_comm]
    have hflushlen : cid + 1 = (flushClause clauses current title cid src).length + 1 := by
      simp [flushClause, hcid]
    unfold paraGo
    split
    · exact ih _ _ _ _ _ hids hcid
    · split
      · split
        · exact ih _ _ _ _ _ hids hcid
        · exact ih _ _ _ _ _ hflush hflushlen
      · split
        · split
          · exact ih _ _ _ _ _ hids hcid
          · exact ih _ _ _ _ _ hflush hflushlen
        · exact ih _ _ _ _ _ hids hcid

-- =====================================================
-- Toolkit: fallback lemmas
-- =====================================================

/-- Number of candidate fragments of the sentence-split that survive the
40-character filter (after stripping). -/
def survCount (sents : List (Option (List Char))) : Nat :=
  ((sents.filterMap id).filter fun s => decide (40 ≤ (trimL s).length)).length

theorem buildSent_ok : ∀ (sents : List (Option (List Char))) (idx : Nat),
    (∀ o ∈ sents, o ≠ none) →
    ∃ cs, buildSent idx sents = .ok cs ∧ cs.length = survCount sents ∧
      ∀ c ∈ cs, c.source = "sentence-split" := by
  intro sents
  induction sents with
  | nil =>
    intro idx _
    exact ⟨[], rfl, rfl, by simp⟩
  | cons o rest ih =>
    intro idx hnn
    cases o with
    | none => exact absurd rfl (hnn none (by simp))
    | some s =>
      obtain ⟨cs, hcs, hlen, hsrc⟩ := ih (idx + 1) fun o ho => hnn o (by simp [ho])
      unfold buildSent
      split
      · refine ⟨cs, hcs, ?_, hsrc⟩
        rw [hlen]
        simp only [survCount, List.filterMap_cons, id, List.filter_cons]
        rw [if_neg (by simp; omega)]
      · refine ⟨sentClause idx (trimL s) :: cs, by rw [hcs], ?_, ?_⟩
        · simp only [survCount, List.filterMap_cons, id, List.filter_cons,
            List.length_cons]
          rw [if_pos (by simp; omega)]
          rw [List.length_cons, hlen]
          rfl
        · intro c hc
          rcases List.mem_cons.1 hc with rfl | hmem
          · rfl
          · exact hsrc c hmem

theorem sentClause_id (idx : Nat) (s : List Char) :
    (sentClause idx s).clause_id = idx := rfl

theorem buildSent_ids : ∀ (sents : List (Option (List Char))) (idx : Nat)
    (cs : List Clause), buildSent idx sents = .ok cs →
    (∀ c ∈ cs, idx ≤ c.clause_id) ∧
      List.Chain' (· < ·) (cs.map Clause.clause_id) := by
  intro sents
  induction sents with
  | nil =>
    intro idx cs h
    obtain rfl : ([] : List Clause) = cs := by
      simpa [buildSent] using h
    exact ⟨by simp, by simp⟩
  | cons o rest ih =>
    intro idx cs h
    cases o with
    | none => simp [buildSent] at h
    | some s =>
      unfold buildSent at h
      split at h
      · obtain ⟨hmem, hch⟩ := ih (idx + 1) cs h
        exact ⟨fun c hc => le_trans (by omega) (hmem c hc), hch⟩
      · rcases htail : buildSent (idx + 1) rest with e | tail
        · rw [htail] at h
          cases h
        · rw [htail] at h
          obtain rfl : sentClause idx (trimL s) :: tail = cs := by
            injection h
          obtain ⟨hmem, hch⟩ := ih (idx + 1) tail htail
          constructor
          · intro c hc
            rcases List.mem_cons.1 hc with rfl | hmemc
            · rw [sentClause_id]
            · exact le_trans (by omega) (hmem c hmemc)
          · rw [List.map_cons, sentClause_id]
            refine List.chain'_cons'.2 ⟨?_, hch⟩
            intro y hy
            obtain ⟨c, hcm, rfl⟩ :=
              List.mem_map.1 (List.mem_of_mem_head? hy)
            exact lt_of_lt_of_le (by omega) (hmem c hcm)

theorem buildOcr_spec : ∀ (ps : List (List Char)) (cid : Nat),
    (buildOcr cid ps).map Clause.clause_id
        = List.range' cid (buildOcr cid ps).length ∧
      ∀ c ∈ buildOcr cid ps, c.source = "ocr-fallback" := by
  intro ps
  induction ps with
  | nil => intro cid; exact ⟨rfl, by simp [buildOcr]⟩
  | cons s rest ih =>
    intro cid
    unfold buildOcr
    split
    · exact ih cid
    · obtain ⟨hids, hsrc⟩ := ih (cid + 1)
      constructor
      · rw [List.map_cons, List.length_cons, List.range'_succ, hids]
        rfl
      · intro c hc
        rcases List.mem_cons.1 hc with rfl | hmem
        · rfl
        · exact hsrc c hmem

theorem lsGo_odd : ∀ (fuel : Nat) (prev : Char) (acc cs : List Char),
    (lsGo fuel prev acc cs).length % 2 = 1 := by
  intro fuel
  induction fuel with
  | zero => intro prev acc cs; rfl
  | succ n ih =>
    intro prev acc cs
    cases cs with
    | nil => rfl
    | cons c rest =>
      unfold lsGo
      split
      · rcases hl : legalLook (rest.dropWhile isWsC) with _ | g
        · exact ih _ _ _
        · show (some acc :: g :: lsGo n ' ' [] (rest.dropWhile isWsC)).length % 2 = 1
          have := ih ' ' [] (rest.dropWhile isWsC)
          simp only [List.length_cons]
          omega
      · exact ih _ _ _

theorem legalSplit_odd (b : List Char) : (legalSplit b).length % 2 = 1 :=
  lsGo_odd _ _ _ _

/-- Control-flow dispatcher of `extract_clauses`: every run either returns
the paragraph-strategy result, an adopted sentence-split result, an adopted
OCR-fallback result, or propagates the `None`-crash. -/
theorem extract_spec (input : List Char) :
    extract_clauses input = .ok (paraResult (cleanL input))
    ∨ (∃ c ncs, paraResult (cleanL input) = [c]
        ∧ buildSent 1 (legalSplit c.text) = .ok ncs ∧ 1 < ncs.length
        ∧ extract_clauses input = .ok ncs)
    ∨ (∃ c, paraResult (cleanL input) = [c]
        ∧ 3 ≤ (buildOcr 1 (roughSplit (trimL (cleanL input)))).length
        ∧ extract_clauses input
            = .ok (buildOcr 1 (roughSplit (trimL (cleanL input)))))
    ∨ extract_clauses input = .error () := by
  rcases hpr : paraResult (cleanL input) with _ | ⟨c, _ | ⟨c2, rest2⟩⟩
  · refine Or.inl ?_
    unfold extract_clauses
    rw [hpr]
  · have he : extract_clauses input =
        (if 3 ≤ (legalSplit c.text).length then
          match buildSent 1 (legalSplit c.text) with
          | .error e => .error e
          | .ok new_clauses =>
            if 1 < new_clauses.length then .ok new_clauses
            else ocrStage (cleanL input) [c]
        else ocrStage (cleanL input) [c]) := by
      unfold extract_clauses
      rw [hpr]
    rw [he]
    split
    · rcases hbs : buildSent 1 (legalSplit c.text) with e | ncs
      · cases e
        exact Or.inr (Or.inr (Or.inr rfl))
      · dsimp only
        split
        · exact Or.inr (Or.inl ⟨c, ncs, rfl, hbs, by assumption, rfl⟩)
        · unfold ocrStage
          split
          · exact Or.inr (Or.inr (Or.inl ⟨c, rfl, by assumption, rfl⟩))
          · exact Or.inl rfl
    · unfold ocrStage
      split
      · exact Or.inr (Or.inr (Or.inl ⟨c, rfl, by assumption, rfl⟩))
      · exact Or.inl rfl
  · refine Or.inl ?_
    unfold extract_clauses
    rw [hpr]

-- =====================================================
-- Toolkit: normalizer lemmas (clean_text idempotence)
-- =====================================================

/-- Scanner predicate: every maximal run of `a` in the text has length at
most `cap`, with `k` occurrences of `a` already pending. -/
def runOk (a : Char) (cap : Nat) : Nat → List Char → Bool
  | _, [] => true
  | k, c :: rest =>
    if c = a then decide (k + 1 ≤ cap) && runOk a cap (k + 1) rest
    else runOk a cap 0 rest

theorem runOk_cons_other {a c : Char} {cap k : Nat} {t : List Char}
    (h : c ≠ a) : runOk a cap k (c :: t) = runOk a cap 0 t := by
  conv_lhs => unfold runOk
  rw [if_neg h]

theorem runOk_cons_eq {a : Char} {cap k : Nat} {t : List Char} :
    runOk a cap k (a :: t)
      = (decide (k + 1 ≤ cap) && runOk a cap (k + 1) t) := by
  conv_lhs => unfold runOk
  rw [if_pos rfl]

theorem runOk_mono {a : Char} {cap : Nat} : ∀ (w : List Char) {j k : Nat},
    j ≤ k → runOk a cap k w = true → runOk a cap j w = true := by
  intro w
  induction w with
  | nil => intro j k _ _; rfl
  | cons c rest ih =>
    intro j k hjk h
    by_cases hc : c = a
    · subst hc
      rw [runOk_cons_eq, Bool.and_eq_true, decide_eq_true_iff] at h ⊢
      exact ⟨by omega, ih (by omega) h.2⟩
    · rw [runOk_cons_other hc] at h ⊢
      exact h

theorem runOk_of_not_mem {a b : Char} {cap : Nat} (hab : b ≠ a) :
    ∀ (w : List Char) (k : Nat), (∀ c ∈ w, c = b) → runOk a cap k w = true := by
  intro w
  induction w with
  | nil => intro _ _; rfl
  | cons c rest ih =>
    intro k hmem
    rw [hmem c (by simp), runOk_cons_other hab]
    exact ih 0 fun c hc => hmem c (by simp [hc])

theorem runOk_of_append_left {a : Char} {cap : Nat} :
    ∀ (v b : List Char) {k : Nat},
    runOk a cap k (v ++ b) = true → runOk a cap k v = true := by
  intro v
  induction v with
  | nil => intro b k _; rfl
  | cons c rest ih =>
    intro b k h
    by_cases hc : c = a
    · subst hc
      rw [List.cons_append, runOk_cons_eq, Bool.and_eq_true] at h
      rw [runOk_cons_eq, Bool.and_eq_true]
      exact ⟨h.1, ih b h.2⟩
    · rw [List.cons_append, runOk_cons_other hc] at h
      rw [runOk_cons_other hc]
      exact ih b h

theorem runOk_of_append_right {a : Char} {cap : Nat} :
    ∀ (u v : List Char) {k : Nat},
    runOk a cap k (u ++ v) = true → ∃ j, runOk a cap j v = true := by
  intro u
  induction u with
  | nil => intro v k h; exact ⟨k, h⟩
  | cons c rest ih =>
    intro v k h
    by_cases hc : c = a
    · subst hc
      rw [List.cons_append, runOk_cons_eq, Bool.and_eq_true] at h
      exact ih v h.2
    · rw [List.cons_append, runOk_cons_other hc] at h
      exact ih v h

theorem runOk_of_infix {a : Char} {cap : Nat} {v w : List Char}
    (hvw : v <:+: w) (h : runOk a cap 0 w = true) :
    runOk a cap 0 v = true := by
  obtain ⟨s, t, rfl⟩ := hvw
  rw [List.append_assoc] at h
  obtain ⟨j, hj⟩ := runOk_of_append_right s (v ++ t) h
  exact runOk_mono v (Nat.zero_le j) (runOk_of_append_left v t hj)

theorem runOk_replicate {a : Char} {cap : Nat} :
    ∀ (m k : Nat), k + m ≤ cap → runOk a cap k (List.replicate m a) = true := by
  intro m
  induction m with
  | zero => intro _ _; rfl
  | succ m ih =>
    intro k hm
    rw [List.replicate_succ, runOk_cons_eq, Bool.and_eq_true, decide_eq_true_iff]
    exact ⟨by omega, ih (k + 1) (by omega)⟩

theorem runOk_rep_append {a c : Char} {cap : Nat} {t : List Char}
    (hc : c ≠ a) (ht : runOk a cap 0 t = true) :
    ∀ (m k : Nat), k + m ≤ cap →
    runOk a cap k (List.replicate m a ++ c :: t) = true := by
  intro m
  induction m with
  | zero =>
    intro k _
    rw [List.replicate_zero, List.nil_append, runOk_cons_other hc]
    exact ht
  | succ m ih =>
    intro k hm
    rw [List.replicate_succ, List.cons_append, runOk_cons_eq, Bool.and_eq_true,
      decide_eq_true_iff]
    exact ⟨by omega, ih (k + 1) (by omega)⟩

theorem colGo_fix {a : Char} {cap : Nat} :
    ∀ (s : List Char) (n : Nat), n ≤ cap → runOk a cap n s = true →
    colGo a cap n s = List.replicate n a ++ s := by
  intro s
  induction s with
  | nil =>
    intro n hn _
    unfold colGo
    rw [Nat.min_eq_left hn, List.append_nil]
  | cons c rest ih =>
    intro n hn h
    unfold colGo
    by_cases hc : c = a
    · subst hc
      rw [if_pos rfl]
      rw [runOk_cons_eq, Bool.and_eq_true, decide_eq_true_iff] at h
      rw [ih (n + 1) h.1 h.2, List.replicate_succ']
      simp
    · rw [if_neg hc]
      rw [runOk_cons_other hc] at h
      rw [ih 0 (Nat.zero_le _) h, Nat.min_eq_left hn]
      simp

theorem colGo_ok {a : Char} {cap : Nat} :
    ∀ (s : List Char) (n : Nat), runOk a cap 0 (colGo a cap n s) = true := by
  intro s
  induction s with
  | nil =>
    intro n
    unfold colGo
    exact runOk_replicate _ 0 (by omega)
  | cons c rest ih =>
    intro n
    unfold colGo
    by_cases hc : c = a
    · subst hc
      rw [if_pos rfl]
      exact ih (n + 1)
    · rw [if_neg hc]
      exact runOk_rep_append hc (ih 0) _ 0 (by omega)

theorem colGo_head {a : Char} {cap : Nat} (hcap : 1 ≤ cap) :
    ∀ (s : List Char) (m : Nat), 1 ≤ m → ∃ t, colGo a cap m s = a :: t := by
  intro s
  induction s with
  | nil =>
    intro m hm
    unfold colGo
    have : min m cap = (min m cap - 1) + 1 := by omega
    rw [this, List.replicate_succ]
    exact ⟨_, rfl⟩
  | cons c rest ih =>
    intro m hm
    unfold colGo
    by_cases hc : c = a
    · subst hc
      rw [if_pos rfl]
      exact ih (m + 1) (by omega)
    · rw [if_neg hc]
      have : min m cap = (min m cap - 1) + 1 := by omega
      rw [this, List.replicate_succ]
      exact ⟨_, rfl⟩

/-- Runs of a different character before a text do not affect its run bound
(they only reset the pending count). -/
theorem runOk_rep_skip {a b : Char} {capb : Nat} (hab : a ≠ b) :
    ∀ (m : Nat) (w : List Char) (k : Nat),
    (m = 0 → runOk b capb k w = true) →
    (1 ≤ m → runOk b capb 0 w = true) →
    runOk b capb k (List.replicate m a ++ w) = true := by
  intro m
  induction m with
  | zero =>
    intro w k h0 _
    rw [List.replicate_zero, List.nil_append]
    exact h0 rfl
  | succ m ih =>
    intro w k _ h1
    rw [List.replicate_succ, List.cons_append, runOk_cons_other hab]
    exact ih w 0 (fun _ => h1 (by omega)) fun _ => h1 (by omega)

/-- Collapsing runs of one character preserves the run bound on any other
character (run-flushes of a nonzero cap never delete a whole separator). -/
theorem colGo_preserve {a b : Char} {cap capb : Nat} (hab : b ≠ a)
    (hcap : 1 ≤ cap) :
    ∀ (s : List Char) (k n : Nat), runOk b capb k s = true →
    runOk b capb k (colGo a cap n s) = true := by
  intro s
  induction s with
  | nil =>
    intro k n _
    unfold colGo
    exact runOk_of_not_mem (Ne.symm hab) _ k fun c hc =>
      List.eq_of_mem_replicate hc
  | cons c rest ih =>
    intro k n h
    unfold colGo
    by_cases hc : c = a
    · subst hc
      rw [if_pos rfl]
      rw [runOk_cons_other (Ne.symm hab)] at h
      obtain ⟨t, ht⟩ := colGo_head hcap rest (n + 1) (by omega)
      rw [ht, runOk_cons_other (Ne.symm hab)]
      have hrec := ih 0 (n + 1) h
      rw [ht, runOk_cons_other (Ne.symm hab)] at hrec
      exact hrec
    · rw [if_neg hc]
      by_cases hcb : c = b
      · subst hcb
        rw [runOk_cons_eq, Bool.and_eq_true, decide_eq_true_iff] at h
        have hrec := ih (k + 1) 0 h.2
        refine runOk_rep_skip (Ne.symm hab) _ _ k ?_ ?_
        · intro _
          rw [runOk_cons_eq, Bool.and_eq_true, decide_eq_true_iff]
          exact ⟨h.1, hrec⟩
        · intro _
          rw [runOk_cons_eq, Bool.and_eq_true, decide_eq_true_iff]
          exact ⟨by omega, runOk_mono _ (by omega) hrec⟩
      · rw [runOk_cons_other hcb] at h
        have hrec := ih 0 0 h
        refine runOk_rep_skip (Ne.symm hab) _ _ k ?_ ?_
        · intro _
          rw [runOk_cons_other hcb]
          exact hrec
        · intro _
          rw [runOk_cons_other hcb]
          exact hrec

theorem trimL_prefix_drop (s : List Char) :
    trimL s <+: s.dropWhile isWsC := by
  unfold trimL
  have h := List.dropWhile_suffix (l := (s.dropWhile isWsC).reverse) isWsC
  have h2 := List.reverse_prefix.2 h
  rwa [List.reverse_reverse] at h2

theorem trimL_infix_self (s : List Char) : trimL s <:+: s :=
  List.infix_iff_prefix_suffix.2
    ⟨s.dropWhile isWsC, trimL_prefix_drop s, List.dropWhile_suffix _⟩

theorem trimL_runOk {a : Char} {cap : Nat} {s : List Char}
    (h : runOk a cap 0 s = true) : runOk a cap 0 (trimL s) = true :=
  runOk_of_infix (trimL_infix_self s) h

theorem dropWhile_eq_self_of_head {p : Char → Bool} {l : List Char}
    (h : ∀ c, l.head? = some c → p c = false) : l.dropWhile p = l := by
  cases l with
  | nil => rfl
  | cons c r =>
    rw [List.dropWhile_cons, h c rfl]
    simp

theorem dropWhile_dropWhile_self (p : Char → Bool) (l : List Char) :
    (l.dropWhile p).dropWhile p = l.dropWhile p := by
  apply dropWhile_eq_self_of_head
  intro c hc
  have h := List.head?_dropWhile_not p l
  rw [hc] at h
  exact h

theorem trimL_idem (s : List Char) : trimL (trimL s) = trimL s := by
  have hpre := trimL_prefix_drop s
  have hstep1 : (trimL s).dropWhile isWsC = trimL s := by
    apply dropWhile_eq_self_of_head
    intro c hc
    obtain ⟨r, hr⟩ := hpre
    have hne : trimL s ≠ [] := by
      intro h0
      rw [h0] at hc
      cases hc
    have hxhead : (s.dropWhile isWsC).head? = some c := by
      rw [← hr, List.head?_append_of_ne_nil _ hne]
      exact hc
    have h := List.head?_dropWhile_not isWsC s
    rw [hxhead] at h
    exact h
  have h2 : (trimL s).reverse = ((s.dropWhile isWsC).reverse).dropWhile isWsC := by
    show ((((s.dropWhile isWsC).reverse).dropWhile isWsC).reverse).reverse = _
    rw [List.reverse_reverse]
  show (((trimL s).dropWhile isWsC).reverse.dropWhile isWsC).reverse = trimL s
  rw [hstep1, h2, dropWhile_dropWhile_self, ← h2, List.reverse_reverse]

theorem map_eq_self_of {f : Char → Char} : ∀ {s : List Char},
    (∀ c ∈ s, f c = c) → s.map f = s := by
  intro s
  induction s with
  | nil => intro _; rfl
  | cons c r ih =>
    intro h
    rw [List.map_cons, h c (by simp), ih fun x hx => h x (by simp [hx])]

theorem mem_colGo {a : Char} {cap : Nat} : ∀ (s : List Char) (n : Nat)
    (c : Char), c ∈ colGo a cap n s → c = a ∨ c ∈ s := by
  intro s
  induction s with
  | nil =>
    intro n c hc
    exact Or.inl (List.eq_of_mem_replicate hc)
  | cons d rest ih =>
    intro n c hc
    unfold colGo at hc
    by_cases hd : d = a
    · subst hd
      rw [if_pos rfl] at hc
      rcases ih (n + 1) c hc with h | h
      · exact Or.inl h
      · exact Or.inr (by simp [h])
    · rw [if_neg hd] at hc
      rcases List.mem_append.1 hc with h | h
      · exact Or.inl (List.eq_of_mem_replicate h)
      · rcases List.mem_cons.1 h with rfl | h
        · exact Or.inr (by simp)
        · rcases ih 0 c h with h2 | h2
          · exact Or.inl h2
          · exact Or.inr (by simp [h2])

theorem not_tab_mapTab (s : List Char) : '\t' ∉ mapTab s := by
  intro h
  obtain ⟨x, _, hfx⟩ := List.mem_map.1 h
  by_cases hx : x = '\t'
  · rw [if_pos hx] at hfx
    cases hfx
  · rw [if_neg hx] at hfx
    exact hx hfx

theorem mem_mapCR {s : List Char} {c : Char} (h : c ∈ mapCR s) :
    c = '\n' ∨ c ∈ s := by
  obtain ⟨x, hx, hfx⟩ := List.mem_map.1 h
  by_cases hxr : x = '\r'
  · rw [if_pos hxr] at hfx
    exact Or.inl hfx.symm
  · rw [if_neg hxr] at hfx
    exact Or.inr (hfx ▸ hx)

theorem not_cr_mapCR (s : List Char) : '\r' ∉ mapCR s := by
  intro h
  obtain ⟨x, _, hfx⟩ := List.mem_map.1 h
  by_cases hx : x = '\r'
  · rw [if_pos hx] at hfx
    cases hfx
  · rw [if_neg hx] at hfx
    exact hx hfx

theorem tab_not_mem_cleanL (s : List Char) : '\t' ∉ cleanL s := by
  intro h
  have h1 := (trimL_infix_self _).subset h
  rcases mem_colGo _ _ _ h1 with h2 | h2
  · cases h2
  · rcases mem_colGo _ _ _ h2 with h3 | h3
    · cases h3
    · rcases mem_mapCR h3 with h4 | h4
      · cases h4
      · exact not_tab_mapTab s h4

theorem cr_not_mem_cleanL (s : List Char) : '\r' ∉ cleanL s := by
  intro h
  have h1 := (trimL_infix_self _).subset h
  rcases mem_colGo _ _ _ h1 with h2 | h2
  · cases h2
  · rcases mem_colGo _ _ _ h2 with h3 | h3
    · cases h3
    · exact not_cr_mapCR _ h3

/-- Core of the idempotence of `clean_text`: its output contains no tab and
no carriage return, has no run of 3+ newlines nor of 2+ spaces, and is
trimmed, so every pipeline stage fixes it. -/
theorem cleanL_idem (s : List Char) : cleanL (cleanL s) = cleanL s := by
  have h1 : mapTab (cleanL s) = cleanL s :=
    map_eq_self_of fun c hc => by
      have hcc : c ≠ '\t' := by
        intro h0
        rw [h0] at hc
        exact tab_not_mem_cleanL s hc
      rw [if_neg hcc]
  have h2 : mapCR (cleanL s) = cleanL s :=
    map_eq_self_of fun c hc => by
      have hcc : c ≠ '\r' := by
        intro h0
        rw [h0] at hc
        exact cr_not_mem_cleanL s hc
      rw [if_neg hcc]
  have hnl : runOk '\n' 2 0 (cleanL s) = true := by
    unfold cleanL
    exact trimL_runOk (colGo_preserve (by decide) (by decide) _ 0 0 (colGo_ok _ _))
  have hsp : runOk ' ' 1 0 (cleanL s) = true := by
    unfold cleanL
    exact trimL_runOk (colGo_ok _ _)
  have h3 : collapseNl (cleanL s) = cleanL s := by
    unfold collapseNl
    rw [colGo_fix _ 0 (by omega) hnl]
    rfl
  have h4 : collapseSp (cleanL s) = cleanL s := by
    unfold collapseSp
    rw [colGo_fix _ 0 (by omega) hsp]
    rfl
  have h5 : trimL (cleanL s) = cleanL s := by
    show trimL (trimL (collapseSp (collapseNl (mapCR (mapTab s))))) = _
    rw [trimL_idem]
    rfl
  show trimL (collapseSp (collapseNl (mapCR (mapTab (cleanL s))))) = cleanL s
  rw [h1, h2]
  show trimL (collapseSp (collapseNl (cleanL s))) = cleanL s
  rw [h3]
  show trimL (collapseSp (cleanL s)) = cleanL s
  rw [h4]
  exact h5

-- =====================================================
-- Toolkit: remaining support lemmas
-- =====================================================

theorem buildSent_sources : ∀ (sents : List (Option (List Char))) (idx : Nat)
    (cs : List Clause), buildSent idx sents = .ok cs →
    ∀ c ∈ cs, c.source = "sentence-split" := by
  intro sents
  induction sents with
  | nil =>
    intro idx cs h
    obtain rfl : ([] : List Clause) = cs := by simpa [buildSent] using h
    simp
  | cons o rest ih =>
    intro idx cs h
    cases o with
    | none => simp [buildSent] at h
    | some s =>
      unfold buildSent at h
      split at h
      · exact ih (idx + 1) cs h
      · rcases htail : buildSent (idx + 1) rest with e | tail
        · rw [htail] at h
          cases h
        · rw [htail] at h
          obtain rfl : sentClause idx (trimL s) :: tail = cs := by injection h
          intro c hc
          rcases List.mem_cons.1 hc with rfl | hmem
          · rfl
          · exact ih (idx + 1) tail htail c hmem

theorem assess_risk_score (c : List Char) :
    (assess_risk c).score = scoreLow (lowerL c) := rfl

theorem assess_risk_risk_level (c : List Char) :
    (assess_risk c).risk_level =
      (if 60 ≤ (assess_risk c).score then "High"
       else if 30 ≤ (assess_risk c).score then "Medium" else "Low") := rfl

theorem assess_risk_priority (c : List Char) :
    (assess_risk c).negotiation_priority =
      (if 60 ≤ (assess_risk c).score then "Immediate"
       else if 30 ≤ (assess_risk c).score then "Recommended" else "Optional") := rfl

theorem assess_risk_confidence (c : List Char) :
    (assess_risk c).confidence =
      pyRound2 (min (95/100 : ℚ) (6/10 + ((assess_risk c).score : ℚ) / 120)) := rfl

theorem pyRound2_conf_bounds (s : Nat) :
    6/10 ≤ pyRound2 (min (95/100 : ℚ) (6/10 + (s : ℚ)/120))
    ∧ pyRound2 (min (95/100 : ℚ) (6/10 + (s : ℚ)/120)) ≤ 95/100 := by
  by_cases hs : s < 42
  · interval_cases s <;> constructor <;> norm_num [pyRound2, rndHalfEven]
  · have hcast : (42 : ℚ) ≤ (s : ℚ) := by
      exact_mod_cast Nat.le_of_not_lt hs
    have hmin : min (95/100 : ℚ) (6/10 + (s : ℚ)/120) = 95/100 := by
      apply min_eq_left
      linarith
    rw [hmin]
    norm_num [pyRound2, rndHalfEven]

theorem chain_lt_range' : ∀ (n s : Nat), List.Chain' (· < ·) (List.range' s n) := by
  intro n
  induction n with
  | zero => intro s; simp
  | succ m ih =>
    intro s
    rw [List.range'_succ]
    refine List.chain'_cons'.2 ⟨?_, ih (s + 1)⟩
    intro y hy
    cases m with
    | zero => cases hy
    | succ k =>
      rw [List.range'_succ] at hy
      simp at hy
      omega

theorem ambLoop_found (lex : List (List Char × AmbTermInfo)) (text : List Char) :
    (ambLoop lex text).1 = (lex.filter fun e => isSub e.1 text).map Prod.fst := by
  induction lex with
  | nil => rfl
  | cons e rest ih =>
    obtain ⟨term, info⟩ := e
    unfold ambLoop
    rw [List.filter_cons]
    split
    · dsimp only
      rw [List.map_cons, ih]
    · dsimp only
      exact ih

theorem ambLoop_sev (lex : List (List Char × AmbTermInfo)) (text : List Char) :
    (ambLoop lex text).2.1 =
      ((lex.filter fun e => isSub e.1 text).map fun e => e.2.severity).sum := by
  induction lex with
  | nil => rfl
  | cons e rest ih =>
    obtain ⟨term, info⟩ := e
    unfold ambLoop
    rw [List.filter_cons]
    split
    · dsimp only
      rw [List.map_cons, List.sum_cons, ih]
    · dsimp only
      exact ih

-- =====================================================
-- Claims
-- =====================================================

/-- C1: refuted as stated — `extract_clauses` is not total.  On this plain
two-sentence input the paragraph strategy yields exactly one clause, the
sentence-split fallback fires, and `re.split` inserts `None` for the
non-participating capture group inside the lookahead, so `s.strip()` raises
`AttributeError` (modelled as `Except.error ()`).  The empty-input half of
the claim does hold: the empty string maps to the empty sequence. -/
theorem c1_extract_crash :
    extract_clauses "Work must be done with care every single day. Employee shall not disclose any information belonging to the employer.".data
        = .error ()
    ∧ extract_clauses [] = .ok [] :=
  ⟨rfl, rfl⟩

/-- C2: counterexample — on the non-empty normalized input "TERMINATION NOW"
(a heading-only document, already a fixed point of `clean_text`)
`extract_clauses` returns the empty list: the output is not non-empty, and
the non-blank heading line is not contained in any clause text. -/
theorem c2_coverage_cex :
    cleanL "TERMINATION NOW".data = "TERMINATION NOW".data
    ∧ "TERMINATION NOW".data ≠ ([] : List Char)
    ∧ extract_clauses "TERMINATION NOW".data = .ok [] :=
  ⟨rfl, by decide, rfl⟩

/-- C2 (amended): whenever `extract_clauses` returns the paragraph-strategy
result, every line of the cleaned input that is non-blank after stripping and
is not a heading is covered: the returned list is non-empty and the stripped
line occurs inside the whitespace-join of the clauses' texts. -/
theorem c2_amended_coverage (t l : List Char)
    (hpara : extract_clauses t = .ok (paraResult (cleanL t)))
    (hl : l ∈ splitNl (cleanL t)) (hne : trimL l ≠ [])
    (hnh : is_heading (trimL l) = false) :
    ∃ cs, extract_clauses t = .ok cs ∧ cs ≠ []
      ∧ trimL l <:+: joinSp (cs.map Clause.text) := by
  refine ⟨paraResult (cleanL t), hpara, ?_, ?_⟩
  · exact paraGo_ne (splitNl (cleanL t)) [] [] none 1 "paragraph"
      (Or.inr (Or.inr ⟨l, hl, hne, hnh⟩))
  · exact paraGo_line_cov (splitNl (cleanL t)) [] [] none 1 "paragraph" l hl hne hnh

theorem c2_amended_witness :
    ∃ cs, extract_clauses "1. Alpha beta.\n2. Gamma delta.".data = .ok cs ∧ cs ≠ []
      ∧ trimL "1. Alpha beta.".data <:+: joinSp (cs.map Clause.text) :=
  c2_amended_coverage "1. Alpha beta.\n2. Gamma delta.".data "1. Alpha beta.".data
    rfl (by decide) (by decide) (by decide)

/-- C4: on the clause "The company may terminate this agreement at any time
without notice." `assess_risk` returns type "Termination", a score of at
least 70 (it is exactly 20 + 30 + 20 = 70), risk level "High" and
negotiation priority "Immediate". -/
theorem c4_termination_scenario :
    (assess_risk "The company may terminate this agreement at any time without notice.".data).type = "Termination"
    ∧ 70 ≤ (assess_risk "The company may terminate this agreement at any time without notice.".data).score
    ∧ (assess_risk "The company may terminate this agreement at any time without notice.".data).risk_level = "High"
    ∧ (assess_risk "The company may terminate this agreement at any time without notice.".data).negotiation_priority = "Immediate" := by
  refine ⟨by decide, by decide, by decide, by decide⟩

/-- C5: counterexample — the returned confidence is
`round(min(0.95, 0.6 + score/120), 2)`, not `min(0.95, 0.6 + score/120)`
itself: for the clause "terminate" the score is 20, the unrounded value is
23/30 = 0.7666..., and the returned confidence is 0.77. -/
theorem c5_confidence_cex :
    (assess_risk "terminate".data).score = 20
    ∧ (assess_risk "terminate".data).confidence = 77/100
    ∧ (assess_risk "terminate".data).confidence
        ≠ min (95/100 : ℚ) (6/10 + ((assess_risk "terminate".data).score : ℚ) / 120) := by
  have hs : (assess_risk "terminate".data).score = 20 := by decide
  refine ⟨hs, ?_, ?_⟩
  · rw [assess_risk_confidence, hs]
    norm_num [pyRound2, rndHalfEven]
  · rw [assess_risk_confidence, hs]
    norm_num [pyRound2, rndHalfEven]

/-- C5 (amended): the tier mapping holds exactly as stated — score ≥ 60 gives
High/Immediate, 30 ≤ score < 60 gives Medium/Recommended, score < 30 gives
Low/Optional — and the confidence equals `min(0.95, 0.6 + score/120)` rounded
to 2 decimals (Python banker's rounding), a value within [0.6, 0.95]. -/
theorem c5_tier_confidence (clause : List Char) :
    ((assess_risk clause).risk_level, (assess_risk clause).negotiation_priority)
      = (if 60 ≤ (assess_risk clause).score then ("High", "Immediate")
         else if 30 ≤ (assess_risk clause).score then ("Medium", "Recommended")
         else ("Low", "Optional"))
    ∧ (assess_risk clause).confidence
        = pyRound2 (min (95/100 : ℚ) (6/10 + ((assess_risk clause).score : ℚ) / 120))
    ∧ 6/10 ≤ (assess_risk clause).confidence
    ∧ (assess_risk clause).confidence ≤ 95/100 := by
  refine ⟨?_, assess_risk_confidence clause, ?_, ?_⟩
  · rw [assess_risk_risk_level, assess_risk_priority]
    by_cases h60 : 60 ≤ (assess_risk clause).score
    · rw [if_pos h60, if_pos h60, if_pos h60]
    · rw [if_neg h60, if_neg h60, if_neg h60]
      by_cases h30 : 30 ≤ (assess_risk clause).score
      · rw [if_pos h30, if_pos h30, if_pos h30]
      · rw [if_neg h30, if_neg h30, if_neg h30]
  · rw [assess_risk_confidence]
    exact (pyRound2_conf_bounds _).1
  · rw [assess_risk_confidence]
    exact (pyRound2_conf_bounds _).2

/-- C3: counterexample — the adoption rule fails as stated: on this input the
paragraph strategy yields exactly one clause and two fragments survive the
40-character filter, yet no sentence-split result is adopted; the run crashes
on the `None` that `re.split` inserts for the non-participating capture group
of the lookahead. -/
theorem c3_adoption_cex :
    (∃ c, paraResult (cleanL "Delivery of goods must happen before the end of the month. Employee shall maintain accurate records of all transactions done.".data) = [c]
      ∧ 2 ≤ survCount (legalSplit c.text))
    ∧ extract_clauses "Delivery of goods must happen before the end of the month. Employee shall maintain accurate records of all transactions done.".data
        = .error () :=
  ⟨⟨(paraResult (cleanL "Delivery of goods must happen before the end of the month. Employee shall maintain accurate records of all transactions done.".data)).head!,
    rfl, by decide⟩, rfl⟩

/-- C3 (amended): when the paragraph strategy yields exactly one clause, the
raw sentence split has at least 3 parts, none of its parts is the
`None` inserted for a non-participating capture group, and at least 2
fragments survive the 40-character filter, then the sentence-split result is
adopted: one record per surviving fragment, all carrying
source "sentence-split". -/
theorem c3_adoption (t : List Char) (c : Clause)
    (hpr : paraResult (cleanL t) = [c])
    (h3 : 3 ≤ (legalSplit c.text).length)
    (hnn : ∀ o ∈ legalSplit c.text, o ≠ none)
    (h2 : 2 ≤ survCount (legalSplit c.text)) :
    ∃ cs, extract_clauses t = .ok cs
      ∧ cs.length = survCount (legalSplit c.text)
      ∧ ∀ x ∈ cs, x.source = "sentence-split" := by
  obtain ⟨cs, hcs, hlen, hsrc⟩ := buildSent_ok (legalSplit c.text) 1 hnn
  refine ⟨cs, ?_, hlen, hsrc⟩
  have he : extract_clauses t =
      (if 3 ≤ (legalSplit c.text).length then
        match buildSent 1 (legalSplit c.text) with
        | .error e => .error e
        | .ok new_clauses =>
          if 1 < new_clauses.length then .ok new_clauses
          else ocrStage (cleanL t) [c]
      else ocrStage (cleanL t) [c]) := by
    unfold extract_clauses
    rw [hpr]
  rw [he, if_pos h3, hcs]
  dsimp only
  rw [if_pos (show 1 < cs.length by omega)]

theorem c3_adoption_witness :
    ∃ cs, extract_clauses "Every party to this agreement must act with honesty and integrity. The employer may assign additional duties as required by business needs.".data = .ok cs
      ∧ cs.length = survCount (legalSplit ((paraResult (cleanL "Every party to this agreement must act with honesty and integrity. The employer may assign additional duties as required by business needs.".data)).head!.text))
      ∧ ∀ x ∈ cs, x.source = "sentence-split" :=
  c3_adoption "Every party to this agreement must act with honesty and integrity. The employer may assign additional duties as required by business needs.".data
    (paraResult (cleanL "Every party to this agreement must act with honesty and integrity. The employer may assign additional duties as required by business needs.".data)).head!
    rfl (by decide) (by decide) (by decide)

/-- C6: appending any phrase of the fixed critical-red-flag list (after a
space separator) to a clause's text never decreases the `assess_risk` score,
even though the appended phrase may change the classified type. -/
theorem c6_redflag_monotone (u p : List Char) (hp : p ∈ critical_red_flags) :
    (assess_risk u).score ≤ (assess_risk (u ++ ' ' :: p)).score := by
  have hlsp : lowerL (' ' :: p) = ' ' :: p := by
    fin_cases hp <;> decide
  rw [assess_risk_score, assess_risk_score, lowerL_append, hlsp]
  exact scoreLow_mono_flag hp

theorem c6_redflag_monotone_witness :
    "irrevocable".data ∈ critical_red_flags
    ∧ (assess_risk "payment terms".data).score
        ≤ (assess_risk ("payment terms".data ++ ' ' :: "irrevocable".data)).score :=
  ⟨by decide, c6_redflag_monotone "payment terms".data "irrevocable".data (by decide)⟩

/-- C7: the normalizer contract — `clean_text` is idempotent, maps the empty
string to the empty string, its output contains no tab and no carriage
return, every maximal run of newlines in the output has length at most 2,
every maximal run of spaces has length at most 1, and the output carries no
leading or trailing whitespace (it is a fixed point of stripping). -/
theorem c7_clean_contract (t : List Char) :
    cleanL (cleanL t) = cleanL t
    ∧ cleanL [] = []
    ∧ '\t' ∉ cleanL t
    ∧ '\r' ∉ cleanL t
    ∧ runOk '\n' 2 0 (cleanL t) = true
    ∧ runOk ' ' 1 0 (cleanL t) = true
    ∧ trimL (cleanL t) = cleanL t := by
  refine ⟨cleanL_idem t, rfl, tab_not_mem_cleanL t, cr_not_mem_cleanL t, ?_, ?_, trimL_idem _⟩
  · exact trimL_runOk (colGo_preserve (by decide) (by decide) _ 0 0 (colGo_ok _ 0))
  · exact trimL_runOk (colGo_ok _ 0)

/-- C8: counterexample — the sentence-split fallback numbers its records by
their 1-based position in the raw split list, skipped fragments included: on
this input it emits 2 records with clause_ids [1, 3], not [1, 2]. -/
theorem c8_ids_cex :
    ∃ cs, extract_clauses "Alpha beta gamma delta epsilon this is the first long sentence. The employee shall perform all duties assigned with diligence and care.".data = .ok cs
      ∧ cs.map Clause.clause_id = [1, 3]
      ∧ cs.map Clause.clause_id ≠ List.range' 1 cs.length :=
  ⟨_, rfl, by decide, by decide⟩

/-- C8 (amended): in every sequence returned by `extract_clauses` the
clause_ids are strictly increasing in emission order (hence unique), and
whenever no record comes from the sentence-split fallback they are exactly
the consecutive integers 1, 2, ..., n. -/
theorem c8_ids (t : List Char) (cs : List Clause)
    (h : extract_clauses t = .ok cs) :
    List.Chain' (· < ·) (cs.map Clause.clause_id)
    ∧ ((∀ c ∈ cs, c.source ≠ "sentence-split") →
        cs.map Clause.clause_id = List.range' 1 cs.length) := by
  rcases extract_spec t with hp | ⟨c, ncs, hpr, hbs, hlen, he⟩ | ⟨c, hpr, h3, he⟩ | he
  · rw [h] at hp
    obtain rfl : cs = paraResult (cleanL t) := by
      injection hp
    have hids : (paraResult (cleanL t)).map Clause.clause_id
        = List.range' 1 (paraResult (cleanL t)).length :=
      paraGo_ids (splitNl (cleanL t)) [] [] none 1 "paragraph" rfl rfl
    refine ⟨?_, fun _ => hids⟩
    rw [hids]
    exact chain_lt_range' _ _
  · rw [h] at he
    obtain rfl : cs = ncs := by
      injection he
    obtain ⟨hge, hch⟩ := buildSent_ids (legalSplit c.text) 1 cs hbs
    refine ⟨hch, ?_⟩
    intro hns
    cases hxs : cs with
    | nil => simp [hxs]
    | cons c0 rest =>
      have hsrc := buildSent_sources (legalSplit c.text) 1 cs hbs c0 (by rw [hxs]; simp)
      exact absurd hsrc (hns c0 (by rw [hxs]; simp))
  · rw [h] at he
    obtain rfl : cs = buildOcr 1 (roughSplit (trimL (cleanL t))) := by
      injection he
    obtain ⟨hids, _⟩ := buildOcr_spec (roughSplit (trimL (cleanL t))) 1
    refine ⟨?_, fun _ => hids⟩
    rw [hids]
    exact chain_lt_range' _ _
  · rw [h] at he
    cases he

theorem c8_ids_witness :
    List.Chain' (· < ·)
      (((extract_clauses "1. Alpha one two.\n2. Beta three four.".data).toOption.getD []).map Clause.clause_id)
    ∧ ((∀ c ∈ (extract_clauses "1. Alpha one two.\n2. Beta three four.".data).toOption.getD [],
          c.source ≠ "sentence-split") →
        ((extract_clauses "1. Alpha one two.\n2. Beta three four.".data).toOption.getD []).map Clause.clause_id
          = List.range' 1 ((extract_clauses "1. Alpha one two.\n2. Beta three four.".data).toOption.getD []).length) :=
  c8_ids "1. Alpha one two.\n2. Beta three four.".data _ rfl

/-- C9: on non-empty text, `detect_ambiguity` returns exactly the lexicon
phrases that occur case-insensitively as substrings of the clause text;
`analyze_ambiguity` collects the same matches, sums their severities into
severity_score, maps it to risk_level "High" when ≥ 6, "Medium" when ≥ 3 and
"Low" otherwise, and returns de-duplicated suggestions. -/
theorem c9_ambiguity (t : List Char) (h : t ≠ []) :
    (∀ p : List Char, p ∈ detect_ambiguity t ↔
        p ∈ AMBIGUOUS_TERMS.map Prod.fst ∧ p <:+: lowerL t)
    ∧ (analyze_ambiguity t).found_terms
        = (AMBIGUOUS_TERMS.filter fun e => isSub e.1 (lowerL t)).map Prod.fst
    ∧ (analyze_ambiguity t).severity_score
        = ((AMBIGUOUS_TERMS.filter fun e => isSub e.1 (lowerL t)).map
            fun e => e.2.severity).sum
    ∧ (analyze_ambiguity t).risk_level
        = (if 6 ≤ (analyze_ambiguity t).severity_score then "High"
           else if 3 ≤ (analyze_ambiguity t).severity_score then "Medium"
           else "Low")
    ∧ (analyze_ambiguity t).suggestions.Nodup := by
  refine ⟨?_, ?_, ?_, ?_, ?_⟩
  · intro p
    unfold detect_ambiguity
    rw [if_neg h]
    simp only [List.mem_filter, isSub_iff]
  · simp only [analyze_ambiguity, if_neg h]
    exact ambLoop_found AMBIGUOUS_TERMS (lowerL t)
  · simp only [analyze_ambiguity, if_neg h]
    exact ambLoop_sev AMBIGUOUS_TERMS (lowerL t)
  · simp only [analyze_ambiguity, if_neg h]
  · simp only [analyze_ambiguity, if_neg h]
    exact List.nodup_dedup _

theorem c9_ambiguity_witness :
    "best efforts".data
        ∈ detect_ambiguity "The Supplier shall use best efforts and act in a commercially reasonable manner.".data
    ∧ "commercially reasonable".data
        ∈ detect_ambiguity "The Supplier shall use best efforts and act in a commercially reasonable manner.".data
    ∧ ((∀ p : List Char,
          p ∈ detect_ambiguity "The Supplier shall use best efforts and act in a commercially reasonable manner.".data ↔
            p ∈ AMBIGUOUS_TERMS.map Prod.fst
            ∧ p <:+: lowerL "The Supplier shall use best efforts and act in a commercially reasonable manner.".data)
        ∧ (analyze_ambiguity "The Supplier shall use best efforts and act in a commercially reasonable manner.".data).found_terms
            = (AMBIGUOUS_TERMS.filter fun e => isSub e.1 (lowerL "The Supplier shall use best efforts and act in a commercially reasonable manner.".data)).map Prod.fst
        ∧ (analyze_ambiguity "The Supplier shall use best efforts and act in a commercially reasonable manner.".data).severity_score
            = ((AMBIGUOUS_TERMS.filter fun e => isSub e.1 (lowerL "The Supplier shall use best efforts and act in a commercially reasonable manner.".data)).map
                fun e => e.2.severity).sum
        ∧ (analyze_ambiguity "The Supplier shall use best efforts and act in a commercially reasonable manner.".data).risk_level
            = (if 6 ≤ (analyze_ambiguity "The Supplier shall use best efforts and act in a commercially reasonable manner.".data).severity_score then "High"
               else if 3 ≤ (analyze_ambiguity "The Supplier shall use best efforts and act in a commercially reasonable manner.".data).severity_score then "Medium"
               else "Low")
        ∧ (analyze_ambiguity "The Supplier shall use best efforts and act in a commercially reasonable manner.".data).suggestions.Nodup) :=
  ⟨by decide, by decide,
    c9_ambiguity "The Supplier shall use best efforts and act in a commercially reasonable manner.".data (by decide)⟩

theorem ite_default_ne_nil (A : List String) (d : String) :
    (if A = [] then [d] else A) ≠ [] := by
  split
  · simp
  · assumption

/-- C10: for every clause text the suggestions list returned by `assess_risk`
is non-empty, and it equals the accumulated suggestion list when that list is
non-empty and the single default entry "No immediate action required."
otherwise. -/
theorem c10_suggestions (clause : List Char) :
    (assess_risk clause).suggestions ≠ []
    ∧ (assess_risk clause).suggestions
        = (if (typeBranch (lowerL clause) (classify_clause clause)).suggestions
              ++ (if hasAny ambiguity_terms (lowerL clause) then
                    ["Replace vague terms with measurable obligations."] else []) = []
           then ["No immediate action required."]
           else (typeBranch (lowerL clause) (classify_clause clause)).suggestions
              ++ (if hasAny ambiguity_terms (lowerL clause) then
                    ["Replace vague terms with measurable obligations."] else [])) := by
  constructor
  · show (if (typeBranch (lowerL clause) (classify_clause clause)).suggestions
              ++ (if hasAny ambiguity_terms (lowerL clause) then
                    ["Replace vague terms with measurable obligations."] else []) = []
           then ["No immediate action required."]
           else (typeBranch (lowerL clause) (classify_clause clause)).suggestions
              ++ (if hasAny ambiguity_terms (lowerL clause) then
                    ["Replace vague terms with measurable obligations."] else [])) ≠ []
    exact ite_default_ne_nil _ _
  · rfl
